import Mathlib

/-!
Verification development for the HTML sanitizer of this repository.

The embedding models JavaScript strings as `List Char` (for the tokenizer
and the policy engine, which operate per UTF-16 code unit; all characters
that the scanner treats specially are ASCII) and as `List Nat` of UTF-16
code units for the href sanitizer, where `String.fromCodePoint` range
behaviour matters.  `toLowerCase` is modelled by ASCII lowering, which
agrees with JavaScript on every character the scanner can compare.
Faithful sources: `src/SanitizeParser/SanitizeParser.ts`, the extended
tokenizer (the `Tokenizer.ts` snapshot carrying `tagStart`, whose callback
signatures `SanitizeParser.ts` requires), and the `decodeEntities` /
`sanitizeHref` pair of the regression-test module.
-/

/-- Double-quote character, written by code to avoid escape clutter. -/
def quoteD : Char := Char.ofNat 34

/-- Single-quote character. -/
def quoteS : Char := Char.ofNat 39

/-- Form-feed character (CharCodes.FormFeed = 0x0c). -/
def formFeed : Char := Char.ofNat 12

/-- Tokenizer whitespace test: space, newline, tab, form feed, carriage return. -/
def isWhitespaceC (c : Char) : Bool :=
  c = ' ' || c = '\n' || c = '\t' || c = formFeed || c = '\r'

/-- End of a tag section: slash, greater-than, or whitespace. -/
def isEndOfTagSectionC (c : Char) : Bool :=
  c = '/' || c = '>' || isWhitespaceC c

/-- ASCII alphabetic test used for tag-name start characters. -/
def isASCIIAlphaC (c : Char) : Bool :=
  ('a' ≤ c && c ≤ 'z') || ('A' ≤ c && c ≤ 'Z')

/-- Attribute quote style (QuoteType of the tokenizer). -/
inductive Qt
  | noValue
  | unquoted
  | single
  | double
  deriving DecidableEq, Repr

/-- Tokenizer finite-state-machine states. -/
inductive TState
  | text
  | beforeTagName
  | inTagName
  | inSelfClosingTag
  | beforeClosingTagName
  | inClosingTagName
  | afterClosingTagName
  | beforeAttributeName
  | inAttributeName
  | afterAttributeName
  | beforeAttributeValue
  | inAttributeValueDq
  | inAttributeValueSq
  | inAttributeValueNq
  deriving DecidableEq, Repr

/-- Tokenizer callback events, with buffer offsets.  Offsets are `Int`
because the source stores `-1` into `sectionStart` as a sentinel. -/
inductive Evt
  | text (s e : Int)
  | openTagName (s e : Int)
  | openTagEnd (e tagStart tagEnd : Int)
  | selfClosing (e tagStart tagEnd : Int)
  | closeTag (s e tagStart tagEnd : Int)
  | attribName (s e : Int)
  | attribData (s e : Int)
  | attribEnd (q : Qt) (e : Int)
  deriving DecidableEq, Repr

/-- Mutable scan state of the tokenizer: current state, section start
marker (with the source's `-1` sentinel) and the recorded tag start. -/
structure TkSt where
  state : TState
  sectionStart : Int
  tagStart : Int
  deriving DecidableEq, Repr

/-- State handler for `Text`. -/
def stateText (c : Char) (i : Nat) (st : TkSt) : TkSt × List Evt :=
  if c = '<' then
    let evts := if (i : Int) > st.sectionStart then [Evt.text st.sectionStart i] else []
    (⟨TState.beforeTagName, (i : Int), (i : Int)⟩, evts)
  else (st, [])

/-- State handler for `BeforeAttributeName`. -/
def stateBeforeAttributeName (c : Char) (i : Nat) (st : TkSt) : TkSt × List Evt :=
  if c = '>' then
    ({ st with state := TState.text, sectionStart := (i : Int) + 1 },
      [Evt.openTagEnd i st.tagStart i])
  else if c = '/' then
    ({ st with state := TState.inSelfClosingTag }, [])
  else if !isWhitespaceC c then
    ({ st with state := TState.inAttributeName, sectionStart := (i : Int) }, [])
  else (st, [])

/-- State handler for `BeforeTagName` (after a `<`). -/
def stateBeforeTagName (c : Char) (i : Nat) (st : TkSt) : TkSt × List Evt :=
  if isASCIIAlphaC c then
    ({ st with sectionStart := (i : Int), state := TState.inTagName }, [])
  else if c = '/' then
    ({ st with state := TState.beforeClosingTagName }, [])
  else
    stateText c i { st with state := TState.text }

/-- State handler for `InTagName`. -/
def stateInTagName (c : Char) (i : Nat) (st : TkSt) : TkSt × List Evt :=
  if isEndOfTagSectionC c then
    let p := stateBeforeAttributeName c i
      { st with sectionStart := -1, state := TState.beforeAttributeName }
    (p.1, Evt.openTagName st.sectionStart i :: p.2)
  else (st, [])

/-- State handler for `BeforeClosingTagName`. -/
def stateBeforeClosingTagName (c : Char) (i : Nat) (st : TkSt) : TkSt × List Evt :=
  if isWhitespaceC c then (st, [])
  else if c = '>' then ({ st with state := TState.text }, [])
  else if isASCIIAlphaC c then
    ({ st with state := TState.inClosingTagName, sectionStart := (i : Int) }, [])
  else (st, [])

/-- State handler for `AfterClosingTagName`: skips everything up to `>`. -/
def stateAfterClosingTagName (c : Char) (i : Nat) (st : TkSt) : TkSt × List Evt :=
  if c = '>' then
    ({ st with state := TState.text, sectionStart := (i : Int) + 1 }, [])
  else (st, [])

/-- State handler for `InClosingTagName`. -/
def stateInClosingTagName (c : Char) (i : Nat) (st : TkSt) : TkSt × List Evt :=
  if c = '>' || isWhitespaceC c then
    let p := stateAfterClosingTagName c i
      { st with sectionStart := -1, state := TState.afterClosingTagName }
    (p.1, Evt.closeTag st.sectionStart i st.tagStart i :: p.2)
  else (st, [])

/-- State handler for `InSelfClosingTag`. -/
def stateInSelfClosingTag (c : Char) (i : Nat) (st : TkSt) : TkSt × List Evt :=
  if c = '>' then
    ({ st with state := TState.text, sectionStart := (i : Int) + 1 },
      [Evt.selfClosing i st.tagStart i])
  else if !isWhitespaceC c then
    stateBeforeAttributeName c i { st with state := TState.beforeAttributeName }
  else (st, [])

/-- State handler for `AfterAttributeName`. -/
def stateAfterAttributeName (c : Char) (i : Nat) (st : TkSt) : TkSt × List Evt :=
  if c = '=' then
    ({ st with state := TState.beforeAttributeValue }, [])
  else if c = '/' || c = '>' then
    let p := stateBeforeAttributeName c i
      { st with sectionStart := -1, state := TState.beforeAttributeName }
    (p.1, Evt.attribEnd Qt.noValue st.sectionStart :: p.2)
  else if !isWhitespaceC c then
    ({ st with state := TState.inAttributeName, sectionStart := (i : Int) },
      [Evt.attribEnd Qt.noValue st.sectionStart])
  else (st, [])

/-- State handler for `InAttributeName`. -/
def stateInAttributeName (c : Char) (i : Nat) (st : TkSt) : TkSt × List Evt :=
  if c = '=' || isEndOfTagSectionC c then
    let p := stateAfterAttributeName c i
      { st with sectionStart := (i : Int), state := TState.afterAttributeName }
    (p.1, Evt.attribName st.sectionStart i :: p.2)
  else (st, [])

/-- State handler for unquoted attribute values. -/
def stateInAttributeValueNoQuotes (c : Char) (i : Nat) (st : TkSt) : TkSt × List Evt :=
  if isWhitespaceC c || c = '>' then
    let p := stateBeforeAttributeName c i
      { st with sectionStart := -1, state := TState.beforeAttributeName }
    (p.1, Evt.attribData st.sectionStart i :: Evt.attribEnd Qt.unquoted i :: p.2)
  else (st, [])

/-- State handler for `BeforeAttributeValue`. -/
def stateBeforeAttributeValue (c : Char) (i : Nat) (st : TkSt) : TkSt × List Evt :=
  if c = quoteD then
    ({ st with state := TState.inAttributeValueDq, sectionStart := (i : Int) + 1 }, [])
  else if c = quoteS then
    ({ st with state := TState.inAttributeValueSq, sectionStart := (i : Int) + 1 }, [])
  else if !isWhitespaceC c then
    stateInAttributeValueNoQuotes c i
      { st with sectionStart := (i : Int), state := TState.inAttributeValueNq }
  else (st, [])

/-- Shared handler for quoted attribute values. -/
def handleInAttributeValue (c : Char) (i : Nat) (q : Char) (st : TkSt) : TkSt × List Evt :=
  if c = q then
    ({ st with sectionStart := -1, state := TState.beforeAttributeName },
      [Evt.attribData st.sectionStart i,
       Evt.attribEnd (if q = quoteD then Qt.double else Qt.single) ((i : Int) + 1)])
  else (st, [])

/-- One scan step: dispatch the current character to the state handler. -/
def stepTk (c : Char) (i : Nat) (st : TkSt) : TkSt × List Evt :=
  match st.state with
  | TState.text => stateText c i st
  | TState.beforeTagName => stateBeforeTagName c i st
  | TState.inTagName => stateInTagName c i st
  | TState.beforeClosingTagName => stateBeforeClosingTagName c i st
  | TState.inClosingTagName => stateInClosingTagName c i st
  | TState.afterClosingTagName => stateAfterClosingTagName c i st
  | TState.beforeAttributeName => stateBeforeAttributeName c i st
  | TState.inAttributeName => stateInAttributeName c i st
  | TState.afterAttributeName => stateAfterAttributeName c i st
  | TState.beforeAttributeValue => stateBeforeAttributeValue c i st
  | TState.inAttributeValueDq => handleInAttributeValue c i quoteD st
  | TState.inAttributeValueSq => handleInAttributeValue c i quoteS st
  | TState.inAttributeValueNq => stateInAttributeValueNoQuotes c i st
  | TState.inSelfClosingTag => stateInSelfClosingTag c i st

/-- End-of-input behaviour of the tokenizer (`finish`): a remainder is
emitted only from the `Text` state; other states emit nothing here. -/
def finishTk (endIndex : Nat) (st : TkSt) : List Evt :=
  if st.sectionStart ≥ (endIndex : Int) then []
  else if st.state = TState.text then [Evt.text st.sectionStart endIndex]
  else []

/-- Scan loop of the tokenizer over the remaining characters, with `i`
the index of the head character. -/
def runTk : List Char → Nat → TkSt → List Evt
  | [], i, st => finishTk i st
  | c :: cs, i, st => (stepTk c i st).2 ++ runTk cs (i + 1) (stepTk c i st).1

/-- Full tokenizer scan of a buffer (`Tokenizer.parse`). -/
def tokenize (buffer : List Char) : List Evt :=
  runTk buffer 0 ⟨TState.text, 0, 0⟩

/-- An attribute assembled from tokenizer events. -/
structure TagAttribute where
  name : List Char
  value : List Char
  quoteType : Qt
  deriving DecidableEq, Repr

/-- Assembled tokens of `SanitizeParser.tokenizeHtml`. -/
inductive Token
  | text (s e : Int)
  | openTag (s e : Int) (tagName : List Char) (attributes : List TagAttribute)
  | selfClosingTag (s e : Int) (tagName : List Char) (attributes : List TagAttribute)
  | closeTag (s e : Int) (tagName : List Char)
  deriving DecidableEq, Repr

/-- Start offset of a token span. -/
def tokStart : Token → Int
  | Token.text s _ => s
  | Token.openTag s _ _ _ => s
  | Token.selfClosingTag s _ _ _ => s
  | Token.closeTag s _ _ => s

/-- End offset of a token span. -/
def tokEnd : Token → Int
  | Token.text _ e => e
  | Token.openTag _ e _ _ => e
  | Token.selfClosingTag _ e _ _ => e
  | Token.closeTag _ e _ => e

/-- Attributes carried by a token (empty for text and close tags). -/
def tokAttrs : Token → List TagAttribute
  | Token.openTag _ _ _ attrs => attrs
  | Token.selfClosingTag _ _ _ attrs => attrs
  | _ => []

/-- JavaScript `buffer.slice(s, e)` for the in-range offsets the parser uses. -/
def jsSlice (b : List Char) (s e : Int) : List Char :=
  (b.take e.toNat).drop s.toNat

/-- Accumulator of `SanitizeParser.tokenizeHtml`'s callbacks: in-flight tag
name, attribute buffers, the end of the last pushed token, and the tokens. -/
structure AsmSt where
  tagName : List Char
  tagAttributes : List TagAttribute
  attribName : List Char
  attribValue : List Char
  endIndex : Int
  tokens : List Token
  deriving Repr

/-- One tokenizer callback of `SanitizeParser.tokenizeHtml`. -/
def applyEvt (buffer : List Char) (A : AsmSt) : Evt → AsmSt
  | Evt.text s e =>
    { A with tokens := A.tokens ++ [Token.text s e], endIndex := e }
  | Evt.openTagName s e =>
    { A with tagName := jsSlice buffer s e }
  | Evt.openTagEnd _ tagStart tagEnd =>
    { A with tokens := A.tokens ++ [Token.openTag tagStart (tagEnd + 1) A.tagName A.tagAttributes],
             endIndex := tagEnd + 1, tagName := [], tagAttributes := [] }
  | Evt.selfClosing _ tagStart tagEnd =>
    { A with tokens := A.tokens ++ [Token.selfClosingTag tagStart (tagEnd + 1) A.tagName A.tagAttributes],
             endIndex := tagEnd + 1, tagName := [], tagAttributes := [] }
  | Evt.closeTag s e tagStart tagEnd =>
    let n := jsSlice buffer s e
    { A with tagName := n,
             tokens := A.tokens ++ [Token.closeTag tagStart (tagEnd + 1) n],
             endIndex := tagEnd + 1 }
  | Evt.attribName s e =>
    { A with attribName := jsSlice buffer s e, attribValue := [] }
  | Evt.attribData s e =>
    { A with attribValue := A.attribValue ++ jsSlice buffer s e }
  | Evt.attribEnd q _ =>
    { A with tagAttributes := A.tagAttributes ++ [⟨A.attribName, A.attribValue, q⟩],
             attribName := [], attribValue := [] }

/-- Initial assembler state. -/
def asmInit : AsmSt := ⟨[], [], [], [], 0, []⟩

/-- `SanitizeParser.tokenizeHtml`: run the tokenizer, assemble tokens, and
on `onend` flush any remaining text after the last token as a text token. -/
def tokenizeHtml (buffer : List Char) : List Token :=
  let A := (tokenize buffer).foldl (applyEvt buffer) asmInit
  if A.endIndex < (buffer.length : Int) then
    A.tokens ++ [Token.text A.endIndex buffer.length]
  else A.tokens

/-- The substitution of `HTML_ESCAPE_MAP` on a single character: the five
characters are rewritten to entities, every other character is kept. -/
def escChar (c : Char) : List Char :=
  if c = '&' then ("&amp;").toList
  else if c = '<' then ("&lt;").toList
  else if c = '>' then ("&gt;").toList
  else if c = quoteD then ("&quot;").toList
  else if c = quoteS then ("&#39;").toList
  else [c]

/-- `escapeText`: global substitution of `HTML_ESCAPE_REGEX` characters. -/
def escapeText (s : List Char) : List Char :=
  (s.map escChar).flatten

/-- ASCII lowering (model of `String.prototype.toLowerCase` on the
characters compared here). -/
def toLowerChar (c : Char) : Char :=
  if 'A' ≤ c && c ≤ 'Z' then Char.ofNat (c.toNat + 32) else c

/-- Lowercase a character list. -/
def toLowerL (s : List Char) : List Char :=
  s.map toLowerChar

/-- An allow-list rule (`AllowedTag`): tag name, optional attribute
filter (which may throw, modelled in `Except`), and default attributes
in declaration order (`Object.entries` order of the source object). -/
structure AllowedTag where
  tagName : List Char
  onAttribute : Option (List Char → List Char → Except Unit Bool)
  defaultAttributes : List (List Char × List Char)

/-- Sanitizer options: the useful payload of `SanitizeOptions`. -/
structure SanOptions where
  allowedTags : List AllowedTag

/-- `Map.set` on an association list: replace an existing key, else append. -/
def mapSet (m : List (List Char × AllowedTag)) (k : List Char) (v : AllowedTag) :
    List (List Char × AllowedTag) :=
  if m.any (fun p => decide (p.1 = k)) then
    m.map (fun p => if p.1 = k then (k, v) else p)
  else m ++ [(k, v)]

/-- `buildAllowedTagsMap`: lowercased tag name to rule. -/
def buildAllowedTagsMap (opts : SanOptions) : List (List Char × AllowedTag) :=
  opts.allowedTags.foldl (fun m tag => mapSet m (toLowerL tag.tagName) tag) []

/-- `findAllowedTag`: case-insensitive lookup. -/
def findAllowedTag (m : List (List Char × AllowedTag)) (tagName : List Char) :
    Option AllowedTag :=
  (m.find? (fun p => decide (p.1 = toLowerL tagName))).map (fun p => p.2)

/-- `isAttributeAllowed`: run the filter on the lowercased name and the raw
value; with no filter every attribute is allowed. -/
def isAttributeAllowed (attr : TagAttribute) (allowedTag : AllowedTag) : Except Unit Bool :=
  match allowedTag.onAttribute with
  | some f => f (toLowerL attr.name) attr.value
  | none => Except.ok true

/-- Rendering of one kept attribute: bare name when `NoValue`, otherwise
the name with the escaped value wrapped in double quotes. -/
def renderAttr (a : TagAttribute) : List Char :=
  if a.quoteType = Qt.noValue then ' ' :: a.name
  else ' ' :: a.name ++ '=' :: quoteD :: escapeText a.value ++ [quoteD]

/-- `processAttributes`: filter each attribute through the rule and render
the kept ones in source order. -/
def processAttributes (attrs : List TagAttribute) (allowedTag : AllowedTag) :
    Except Unit (List Char) :=
  match attrs with
  | [] => Except.ok []
  | a :: rest => do
    let keep ← isAttributeAllowed a allowedTag
    let tail ← processAttributes rest allowedTag
    pure ((if keep then renderAttr a else []) ++ tail)

/-- `addDefaultAttributes`: append each default whose exact name has no
match among the tag's original attributes, escaped, in declared order. -/
def addDefaultAttributes (existingAttributes : List TagAttribute)
    (allowedTag : AllowedTag) : List Char :=
  allowedTag.defaultAttributes.foldl
    (fun acc kv =>
      if (existingAttributes.find? (fun a => decide (a.name = kv.1))).isSome then acc
      else acc ++ ' ' :: kv.1 ++ '=' :: quoteD :: escapeText kv.2 ++ [quoteD])
    []

/-- `buildAllowedTag`: render an allowed open or self-closing tag. -/
def buildAllowedTag (selfClosing : Bool) (tagName : List Char)
    (attrs : List TagAttribute) (allowedTag : AllowedTag) : Except Unit (List Char) := do
  let attrStr ← processAttributes attrs allowedTag
  pure ('<' :: tagName ++ attrStr ++ addDefaultAttributes attrs allowedTag ++
        (if selfClosing then (" />").toList else ['>']))

/-- Per-token policy decision (`processTextToken` / `processTagToken` /
`processCloseTagToken`). -/
def processToken (m : List (List Char × AllowedTag)) (buffer : List Char) :
    Token → Except Unit (List Char)
  | Token.text s e => Except.ok (escapeText (jsSlice buffer s e))
  | Token.openTag s e n attrs =>
    match findAllowedTag m n with
    | some rule => buildAllowedTag false n attrs rule
    | none => Except.ok (escapeText (jsSlice buffer s e))
  | Token.selfClosingTag s e n attrs =>
    match findAllowedTag m n with
    | some rule => buildAllowedTag true n attrs rule
    | none => Except.ok (escapeText (jsSlice buffer s e))
  | Token.closeTag s e n =>
    match findAllowedTag m n with
    | some _ => Except.ok ('<' :: '/' :: n ++ ['>'])
    | none => Except.ok (escapeText (jsSlice buffer s e))

/-- `processTokens`: concatenate the per-token renderings. -/
def processTokens (m : List (List Char × AllowedTag)) (buffer : List Char) :
    List Token → Except Unit (List Char)
  | [] => Except.ok []
  | t :: ts => do
    let piece ← processToken m buffer t
    let rest ← processTokens m buffer ts
    pure (piece ++ rest)

/-- Body of `sanitize` before the catch-all: empty input short-circuits,
otherwise tokenize and run the policy engine. -/
def sanitizeE (opts : SanOptions) (htmlText : List Char) : Except Unit (List Char) :=
  if htmlText = [] then Except.ok []
  else processTokens (buildAllowedTagsMap opts) htmlText (tokenizeHtml htmlText)

/-- `sanitize`: on any thrown error the whole input is escaped and returned. -/
def sanitizeL (opts : SanOptions) (htmlText : List Char) : List Char :=
  match sanitizeE opts htmlText with
  | Except.ok h => h
  | Except.error _ => escapeText htmlText

/-!
Href sanitizer (`decodeEntities` / `sanitizeHref`).  Strings are lists of
UTF-16 code units, the representation JavaScript's regexes operate on;
`String.fromCodePoint` throws a `RangeError` (modelled as `Except.error`)
on code points above 0x10FFFF and encodes astral code points as a
surrogate pair.
-/

/-- Decimal digit code unit. -/
def isDigitU (u : Nat) : Bool := 48 ≤ u && u ≤ 57

/-- Hexadecimal digit code unit. -/
def isHexU (u : Nat) : Bool :=
  (48 ≤ u && u ≤ 57) || (97 ≤ u && u ≤ 102) || (65 ≤ u && u ≤ 70)

/-- ASCII alphabetic code unit. -/
def isAlphaU (u : Nat) : Bool := (97 ≤ u && u ≤ 122) || (65 ≤ u && u ≤ 90)

/-- Scheme-body character class of the regex `[a-zA-Z0-9+.-]`. -/
def isSchemeCharU (u : Nat) : Bool :=
  isAlphaU u || isDigitU u || u = 43 || u = 46 || u = 45

/-- The control characters rejected by `sanitizeHref` (0x00-0x1F and 0x7F). -/
def isCtrlU (u : Nat) : Bool := u ≤ 31 || u = 127

/-- JavaScript regex whitespace class. -/
def isJsWsU (u : Nat) : Bool :=
  (9 ≤ u && u ≤ 13) || u = 32 || u = 160 || u = 5760 || (8192 ≤ u && u ≤ 8202) ||
  u = 8232 || u = 8233 || u = 8239 || u = 8287 || u = 12288 || u = 65279

/-- Decimal value of a digit run. -/
def digitsToNat (ds : List Nat) : Nat :=
  ds.foldl (fun a d => a * 10 + (d - 48)) 0

/-- Value of one hexadecimal digit code unit. -/
def hexDigitVal (u : Nat) : Nat :=
  if 48 ≤ u && u ≤ 57 then u - 48
  else if 97 ≤ u && u ≤ 102 then u - 87
  else u - 55

/-- Hexadecimal value of a digit run. -/
def hexToNat (hs : List Nat) : Nat :=
  hs.foldl (fun a d => a * 16 + hexDigitVal d) 0

/-- `String.fromCodePoint` as UTF-16 code units: a `RangeError` above
0x10FFFF, a surrogate pair for astral code points, the unit itself below
0x10000. -/
def fromCodePointU (cp : Nat) : Except Unit (List Nat) :=
  if cp > 1114111 then Except.error ()
  else if cp < 65536 then Except.ok [cp]
  else Except.ok [55296 + (cp - 65536) / 1024, 56320 + (cp - 65536) % 1024]

/-- Drop a leading semicolon unit, the optional `;?` of the entity regexes. -/
def dropSemi (l : List Nat) : List Nat :=
  if l.head? = some 59 then l.drop 1 else l

/-- Scanner of the decimal character-reference pass.  The fuel only bounds
the recursion (every step consumes at least one unit, so `length + 1` fuel
never runs out); the scan logic mirrors the regex `&#` + digits + `;?`. -/
def passDecGo : Nat → List Nat → Except Unit (List Nat)
  | 0, l => Except.ok l
  | _ + 1, [] => Except.ok []
  | fuel + 1, 38 :: 35 :: rest =>
    if (rest.takeWhile isDigitU) = [] then do
      let r ← passDecGo fuel (35 :: rest)
      pure (38 :: r)
    else do
      let u ← fromCodePointU (digitsToNat (rest.takeWhile isDigitU))
      let r ← passDecGo fuel (dropSemi (rest.drop (rest.takeWhile isDigitU).length))
      pure (u ++ r)
  | fuel + 1, c :: rest => do
    let r ← passDecGo fuel rest
    pure (c :: r)

/-- Global replacement pass for decimal character references. -/
def passDec (l : List Nat) : Except Unit (List Nat) :=
  passDecGo (l.length + 1) l

/-- Scanner of the hexadecimal character-reference pass
(`&#x` + hex digits + `;?`). -/
def passHexGo : Nat → List Nat → Except Unit (List Nat)
  | 0, l => Except.ok l
  | _ + 1, [] => Except.ok []
  | fuel + 1, 38 :: 35 :: 120 :: rest =>
    if (rest.takeWhile isHexU) = [] then do
      let r ← passHexGo fuel (35 :: 120 :: rest)
      pure (38 :: r)
    else do
      let u ← fromCodePointU (hexToNat (rest.takeWhile isHexU))
      let r ← passHexGo fuel (dropSemi (rest.drop (rest.takeWhile isHexU).length))
      pure (u ++ r)
  | fuel + 1, c :: rest => do
    let r ← passHexGo fuel rest
    pure (c :: r)

/-- Global replacement pass for hexadecimal character references. -/
def passHex (l : List Nat) : Except Unit (List Nat) :=
  passHexGo (l.length + 1) l

/-- Scanner of the Unicode escape of exactly four hexadecimal digits
(backslash, u, four hex digits). -/
def passU4Go : Nat → List Nat → Except Unit (List Nat)
  | 0, l => Except.ok l
  | _ + 1, [] => Except.ok []
  | fuel + 1, 92 :: 117 :: rest =>
    if (rest.take 4).length = 4 && (rest.take 4).all isHexU then do
      let u ← fromCodePointU (hexToNat (rest.take 4))
      let r ← passU4Go fuel (rest.drop 4)
      pure (u ++ r)
    else do
      let r ← passU4Go fuel (117 :: rest)
      pure (92 :: r)
  | fuel + 1, c :: rest => do
    let r ← passU4Go fuel rest
    pure (c :: r)

/-- Global replacement pass for the four-digit Unicode escape. -/
def passU4 (l : List Nat) : Except Unit (List Nat) :=
  passU4Go (l.length + 1) l

/-- Scanner of the braced Unicode escape (backslash, u, opening brace,
one or more hex digits, closing brace). -/
def passUBGo : Nat → List Nat → Except Unit (List Nat)
  | 0, l => Except.ok l
  | _ + 1, [] => Except.ok []
  | fuel + 1, 92 :: 117 :: 123 :: rest =>
    if (rest.takeWhile isHexU) ≠ [] &&
        (rest.drop (rest.takeWhile isHexU).length).head? = some 125 then do
      let u ← fromCodePointU (hexToNat (rest.takeWhile isHexU))
      let r ← passUBGo fuel (rest.drop ((rest.takeWhile isHexU).length + 1))
      pure (u ++ r)
    else do
      let r ← passUBGo fuel (117 :: 123 :: rest)
      pure (92 :: r)
  | fuel + 1, c :: rest => do
    let r ← passUBGo fuel rest
    pure (c :: r)

/-- Global replacement pass for the braced Unicode escape. -/
def passUB (l : List Nat) : Except Unit (List Nat) :=
  passUBGo (l.length + 1) l

/-- Scanner of a global literal replacement (the named-entity passes);
every step consumes at least one unit, so `length + 1` fuel suffices. -/
def replaceLitGo (pat rep : List Nat) : Nat → List Nat → List Nat
  | 0, l => l
  | _ + 1, [] => []
  | fuel + 1, c :: rest =>
    if pat ≠ [] ∧ (c :: rest).take pat.length = pat then
      rep ++ replaceLitGo pat rep fuel ((c :: rest).drop pat.length)
    else c :: replaceLitGo pat rep fuel rest

/-- Global literal replacement. -/
def replaceLit (pat rep : List Nat) (l : List Nat) : List Nat :=
  replaceLitGo pat rep (l.length + 1) l

/-- Code units of an ASCII string. -/
def unitsOf (s : String) : List Nat := s.toList.map Char.toNat

/-- `decodeEntities`: the chained replacement passes of the source, in
source order (decimal, hexadecimal, two Unicode-escape forms, then the
five named entities). -/
def decodeEntities (input : List Nat) : Except Unit (List Nat) := do
  let a ← passDec input
  let b ← passHex a
  let c ← passU4 b
  let d ← passUB c
  pure (replaceLit (unitsOf ("&amp;")) [38]
        (replaceLit (unitsOf ("&gt;")) [62]
        (replaceLit (unitsOf ("&lt;")) [60]
        (replaceLit (unitsOf ("&#39;")) [39]
        (replaceLit (unitsOf ("&quot;")) [34] d)))))

/-- Leading-scheme matcher for the regex anchored at the start: an ASCII
letter, then scheme-body characters, then a colon; returns the scheme. -/
def schemeTail (acc : List Nat) : List Nat → Option (List Nat)
  | [] => none
  | d :: ds =>
    if isSchemeCharU d then schemeTail (acc ++ [d]) ds
    else if d = 58 then some acc
    else none

/-- Match `^([a-zA-Z][a-zA-Z0-9+.-]*):` against a decoded value. -/
def findScheme : List Nat → Option (List Nat)
  | [] => none
  | c :: cs => if isAlphaU c then schemeTail [c] cs else none

/-- Replace every literal space by the three units of `%20`. -/
def replaceSpaces (l : List Nat) : List Nat :=
  (l.map (fun u => if u = 32 then [37, 50, 48] else [u])).flatten

/-- Lowercase ASCII letters in a unit list (`toLowerCase` on the scheme). -/
def lowerU (l : List Nat) : List Nat :=
  l.map (fun u => if 65 ≤ u && u ≤ 90 then u + 32 else u)

/-- `sanitizeHref`: empty accepted; decode; reject control characters;
gate a leading scheme to http/https (with the dead whitespace re-check of
the source); accept schemeless values as relative; normalize spaces. -/
def sanitizeHref (raw : List Nat) : Except Unit (Option (List Nat)) :=
  if raw = [] then Except.ok (some [])
  else do
    let decoded ← decodeEntities raw
    if decoded.any isCtrlU then pure none
    else
      match findScheme decoded with
      | some scheme =>
        if lowerU scheme = unitsOf ("http") ∨ lowerU scheme = unitsOf ("https") then
          if (decoded.take (scheme.length + 1)).any isJsWsU then pure none
          else pure (some (replaceSpaces decoded))
        else pure none
      | none => pure (some (replaceSpaces decoded))

/-!
Concrete allow-list configurations used by the claim theorems.
-/

/-- Empty options: every tag disallowed. -/
def noTags : SanOptions := ⟨[]⟩

/-- Allow `a` with no attribute filter and no defaults. -/
def optsA : SanOptions := ⟨[⟨("a").toList, none, []⟩]⟩

/-- Allow `a` with a `target` default attribute and no filter. -/
def optsD : SanOptions :=
  ⟨[⟨("a").toList, none, [(("target").toList, ("_blank").toList)]⟩]⟩

/-- Allow `a` with a reject-everything filter and a `target` default. -/
def optsDF : SanOptions :=
  ⟨[⟨("a").toList, some (fun _ _ => Except.ok false),
     [(("target").toList, ("_blank").toList)]⟩]⟩

/-- Allow `a`, keeping exactly the attributes whose lowercased name is `x`. -/
def optsFx : SanOptions :=
  ⟨[⟨("a").toList, some (fun n _ => Except.ok (decide (n = ("x").toList))), []⟩]⟩

/-- Allow `a` with a filter that always throws. -/
def optsThrow : SanOptions :=
  ⟨[⟨("a").toList, some (fun _ _ => Except.error ()), []⟩]⟩

/-- Forget the recorded quote style of a value-bearing attribute. -/
def normQuote (a : TagAttribute) : TagAttribute :=
  if a.quoteType = Qt.noValue then a else ⟨a.name, a.value, Qt.double⟩

/-- `isAttributeAllowed` never inspects the quote style. -/
theorem isAttributeAllowed_normQuote (a : TagAttribute) (rule : AllowedTag) :
    isAttributeAllowed (normQuote a) rule = isAttributeAllowed a rule := by
  have hn : (normQuote a).name = a.name := by
    unfold normQuote; split <;> rfl
  have hv : (normQuote a).value = a.value := by
    unfold normQuote; split <;> rfl
  unfold isAttributeAllowed
  rw [hn, hv]

/-- `renderAttr` depends only on whether a value is present, never on the
quote character the source used. -/
theorem renderAttr_normQuote (a : TagAttribute) :
    renderAttr (normQuote a) = renderAttr a := by
  unfold renderAttr normQuote
  rcases a with ⟨n, v, q⟩
  cases q <;> simp

/-- C3 counterexample: sanitizing already-escaped text double-escapes the
ampersands, refuting `sanitize("&lt;div&gt;") = "&lt;div&gt;"`. -/
theorem c3_counterexample :
    sanitizeL noTags (("&lt;div&gt;").toList) ≠ ("&lt;div&gt;").toList := by
  decide

/-- C3 (amended): the escape substitution rewrites `&` to `&amp;` like the
other four characters of `HTML_ESCAPE_MAP`, so already-escaped text is
double-escaped and a bare ampersand is rewritten. -/
theorem c3_amended :
    escChar '&' = ("&amp;").toList ∧
    sanitizeL noTags (("&lt;div&gt;").toList) = ("&amp;lt;div&amp;gt;").toList ∧
    sanitizeL noTags (("Tom & Jerry").toList) = ("Tom &amp; Jerry").toList := by
  refine ⟨rfl, by decide, by decide⟩

/-- C6 counterexample: a single-quoted source attribute of an allowed tag
is not rendered back with single quotes. -/
theorem c6_counterexample :
    sanitizeL optsA (("<a x='v'>").toList) ≠ ("<a x='v'>").toList ∧
    sanitizeL optsA (("<a x='v'>").toList) = ("<a x=\"v\">").toList := by
  exact ⟨by decide, by decide⟩

/-- C6 (amended): the recorded quote style of a value-bearing attribute
never influences the rendering — single-quoted values are re-rendered in
double quotes with the escape set applied, exactly like double-quoted and
unquoted values, and `NoValue` attributes render as the bare name. -/
theorem c6_amended :
    (∀ (attrs : List TagAttribute) (rule : AllowedTag),
      processAttributes (attrs.map normQuote) rule = processAttributes attrs rule) ∧
    (∀ (n : List Char), renderAttr ⟨n, [], Qt.noValue⟩ = ' ' :: n) ∧
    sanitizeL optsA (("<a x='v' y=\"w\" z=u t>").toList) =
      ("<a x=\"v\" y=\"w\" z=\"u\" t>").toList := by
  refine ⟨?_, ?_, by decide⟩
  · intro attrs rule
    induction attrs with
    | nil => rfl
    | cons a rest ih =>
      simp only [List.map_cons, processAttributes, isAttributeAllowed_normQuote, ih,
        renderAttr_normQuote]
  · intro n
    rfl

/-- A `find?` result is present exactly when `any` holds. -/
theorem find?_isSome_eq_any {α : Type} (p : α → Bool) (l : List α) :
    (l.find? p).isSome = l.any p := by
  induction l with
  | nil => rfl
  | cons a t ih =>
    by_cases h : p a = true
    · simp [List.find?, List.any, h]
    · simp only [Bool.not_eq_true] at h
      simp [List.find?, List.any, h, ih]

/-- Rendering of one injected default attribute. -/
def renderDefault (kv : List Char × List Char) : List Char :=
  ' ' :: kv.1 ++ '=' :: quoteD :: escapeText kv.2 ++ [quoteD]

/-- The fold of `addDefaultAttributes`, expressed as filter-and-render. -/
theorem addDefault_foldl (attrs : List TagAttribute)
    (defs : List (List Char × List Char)) (acc : List Char) :
    defs.foldl
      (fun acc kv =>
        if (attrs.find? (fun a => decide (a.name = kv.1))).isSome then acc
        else acc ++ ' ' :: kv.1 ++ '=' :: quoteD :: escapeText kv.2 ++ [quoteD])
      acc =
    acc ++ ((defs.filter
      (fun kv => !(attrs.any (fun a => decide (a.name = kv.1))))).map renderDefault).flatten := by
  induction defs generalizing acc with
  | nil => simp
  | cons kv rest ih =>
    simp only [List.foldl_cons]
    by_cases h : attrs.any (fun a => decide (a.name = kv.1)) = true
    · rw [if_pos (by rw [find?_isSome_eq_any]; exact h)]
      rw [ih]
      simp [List.filter_cons, h]
    · simp only [Bool.not_eq_true] at h
      rw [if_neg (by rw [find?_isSome_eq_any, h]; simp)]
      rw [ih]
      simp [List.filter_cons, h, renderDefault]

/-- C7 counterexample: an original attribute `TARGET` whose lowercase
equals the default key `target` does not suppress the default — the
comparison in `addDefaultAttributes` is exact, so the default is appended. -/
theorem c7_counterexample :
    sanitizeL optsD (("<a TARGET=x>").toList) =
      ("<a TARGET=\"x\" target=\"_blank\">").toList ∧
    toLowerL (("TARGET").toList) = ("target").toList := by
  exact ⟨by decide, by decide⟩

/-- C7 (amended): each default entry is appended after the original
attributes, in declared order and escaped, exactly when no attribute with
the same exact (case-sensitive) name was present among the tag's own
original attributes; presence suppresses the default even when that
original attribute was removed by the filter. -/
theorem c7_amended :
    (∀ (attrs : List TagAttribute) (rule : AllowedTag),
      addDefaultAttributes attrs rule =
        ((rule.defaultAttributes.filter
            (fun kv => !(attrs.any (fun a => decide (a.name = kv.1))))).map
          renderDefault).flatten) ∧
    sanitizeL optsDF (("<a target=\"x\">y</a>").toList) = ("<a>y</a>").toList ∧
    sanitizeL optsD (("<a>").toList) = ("<a target=\"_blank\">").toList := by
  refine ⟨?_, by decide, by decide⟩
  intro attrs rule
  unfold addDefaultAttributes
  simpa using addDefault_foldl attrs rule.defaultAttributes []

/-- C9: whenever the sanitizer body throws, `sanitize` catches the error
and returns the whole input passed through the escape substitution, so
the caller always receives a string. -/
theorem c9_catch (opts : SanOptions) (htmlText : List Char) (e : Unit)
    (h : sanitizeE opts htmlText = Except.error e) :
    sanitizeL opts htmlText = escapeText htmlText := by
  unfold sanitizeL
  rw [h]

/-- C9 witness: a throwing `onAttribute` callback on an allowed tag makes
the body throw, and the result is the fully escaped input. -/
theorem c9_catch_witness :
    sanitizeL optsThrow (("<a x=1>hi").toList) = escapeText (("<a x=1>hi").toList) :=
  c9_catch optsThrow (("<a x=1>hi").toList) () (by rfl)

/-- C10: attribute occurrences are processed independently and in source
order — `processAttributes` is an append homomorphism (no deduplication or
merging across occurrences), and duplicated names that pass the filter are
all rendered, as the duplicate-`x` example shows. -/
theorem c10_no_dedup :
    (∀ (rule : AllowedTag) (l1 l2 : List TagAttribute),
      processAttributes (l1 ++ l2) rule =
        (processAttributes l1 rule).bind
          (fun s1 => (processAttributes l2 rule).map (fun s2 => s1 ++ s2))) ∧
    sanitizeL optsFx (("<a x=\"1\" y=\"2\" x=\"3\">").toList) =
      ("<a x=\"1\" x=\"3\">").toList := by
  refine ⟨?_, by decide⟩
  intro rule l1 l2
  induction l1 with
  | nil =>
    simp only [List.nil_append, processAttributes]
    cases processAttributes l2 rule <;> simp [Except.bind, Except.map]
  | cons a rest ih =>
    simp only [List.cons_append, processAttributes, List.append_eq]
    rw [ih]
    cases hb : isAttributeAllowed a rule with
    | error e => simp [Except.bind, bind]
    | ok keep =>
      cases hr : processAttributes rest rule with
      | error e => simp [Except.bind, bind, Except.map]
      | ok s1 =>
        cases hl : processAttributes l2 rule with
        | error e => simp [Except.bind, bind, Except.map, pure, Except.pure]
        | ok s2 => simp [Except.bind, bind, Except.map, pure, Except.pure, List.append_assoc]

/-- C8 counterexample: `String.fromCodePoint` throws a `RangeError` on the
out-of-range character reference, so `sanitizeHref` raises instead of
returning a value. -/
theorem c8_counterexample :
    sanitizeHref (unitsOf ("&#1114112;")) = Except.error () := by
  rfl

/-- C8 (amended): whenever the decoding step succeeds, every remaining
path of `sanitizeHref` is pure — it returns either a sanitized value or
the no-value rejection; the only throw source is an out-of-range code
point inside `decodeEntities`. -/
theorem c8_amended (raw decoded : List Nat)
    (h : decodeEntities raw = Except.ok decoded) :
    ∃ v : Option (List Nat), sanitizeHref raw = Except.ok v := by
  unfold sanitizeHref
  by_cases hr : raw = []
  · rw [if_pos hr]
    exact ⟨some [], rfl⟩
  · rw [if_neg hr]
    simp only [bind, Except.bind, h]
    split
    · exact ⟨none, rfl⟩
    · split
      · split
        · split
          · exact ⟨none, rfl⟩
          · exact ⟨some (replaceSpaces decoded), rfl⟩
        · exact ⟨none, rfl⟩
      · exact ⟨some (replaceSpaces decoded), rfl⟩

/-- C8 witness: a well-formed dangerous URL decodes fine, and the theorem
yields a returned value (here the rejection). -/
theorem c8_amended_witness :
    ∃ v : Option (List Nat),
      sanitizeHref (unitsOf ("javascript:alert(1)")) = Except.ok v :=
  c8_amended (unitsOf ("javascript:alert(1)")) (unitsOf ("javascript:alert(1)")) (by rfl)

/-- An ASCII letter is not regex whitespace. -/
theorem alpha_not_ws (u : Nat) (h : isAlphaU u = true) : isJsWsU u = false := by
  unfold isAlphaU at h
  simp only [Bool.or_eq_true, Bool.and_eq_true, decide_eq_true_eq] at h
  unfold isJsWsU
  rw [Bool.eq_false_iff]
  intro hw
  simp only [Bool.or_eq_true, Bool.and_eq_true, decide_eq_true_eq] at hw
  omega

/-- A scheme-body character is not regex whitespace. -/
theorem schemeChar_not_ws (u : Nat) (h : isSchemeCharU u = true) : isJsWsU u = false := by
  unfold isSchemeCharU isAlphaU isDigitU at h
  simp only [Bool.or_eq_true, Bool.and_eq_true, decide_eq_true_eq] at h
  unfold isJsWsU
  rw [Bool.eq_false_iff]
  intro hw
  simp only [Bool.or_eq_true, Bool.and_eq_true, decide_eq_true_eq] at hw
  omega

/-- Structure extracted from a successful `schemeTail` match. -/
theorem schemeTail_spec (l : List Nat) : ∀ (acc s : List Nat),
    schemeTail acc l = some s →
    ∃ ext rest, s = acc ++ ext ∧ l = ext ++ 58 :: rest ∧
      ∀ u ∈ ext, isSchemeCharU u = true := by
  induction l with
  | nil => intro acc s h; exact absurd h (by simp [schemeTail])
  | cons d ds ih =>
    intro acc s h
    unfold schemeTail at h
    by_cases hd : isSchemeCharU d = true
    · rw [if_pos hd] at h
      obtain ⟨ext', rest, hs, hds, hall⟩ := ih (acc ++ [d]) s h
      refine ⟨d :: ext', rest, ?_, ?_, ?_⟩
      · simpa [List.append_assoc] using hs
      · simp [hds]
      · intro u hu
        rcases List.mem_cons.mp hu with h1 | h2
        · exact h1 ▸ hd
        · exact hall u h2
    · rw [if_neg hd] at h
      by_cases h58 : d = 58
      · rw [if_pos h58] at h
        refine ⟨[], ds, ?_, ?_, ?_⟩
        · simpa using (Option.some.inj h).symm
        · simp [h58]
        · intro u hu; exact absurd hu (List.not_mem_nil u)
      · rw [if_neg h58] at h
        exact absurd h (by simp)

/-- Structure extracted from a successful anchored scheme match: the value
splits as scheme, colon, remainder, and no scheme character is whitespace. -/
theorem findScheme_spec (l s : List Nat) (h : findScheme l = some s) :
    ∃ rest, l = s ++ 58 :: rest ∧ ∀ u ∈ s, isJsWsU u = false := by
  cases l with
  | nil => exact absurd h (by simp [findScheme])
  | cons c cs =>
    simp only [findScheme] at h
    by_cases hc : isAlphaU c = true
    · rw [if_pos hc] at h
      obtain ⟨ext, rest, hs, hcs, hall⟩ := schemeTail_spec cs [c] s h
      refine ⟨rest, ?_, ?_⟩
      · simp [hs, hcs]
      · intro u hu
        rw [hs] at hu
        rcases List.mem_append.mp hu with h1 | h2
        · rw [List.mem_singleton.mp h1]
          exact alpha_not_ws c hc
        · exact schemeChar_not_ws u (hall u h2)
    · rw [if_neg hc] at h
      exact absurd h (by simp)

/-- Taking one element past an initial segment. -/
theorem take_append_singleton {α : Type} (s : List α) (x : α) (rest : List α) :
    (s ++ x :: rest).take (s.length + 1) = s ++ [x] := by
  induction s with
  | nil => simp
  | cons a t ih => simpa [List.take_succ_cons] using ih

/-- The dead whitespace re-check of `sanitizeHref` is indeed always false
on a matched scheme prefix. -/
theorem scheme_ws_check_false (decoded scheme : List Nat)
    (h : findScheme decoded = some scheme) :
    (decoded.take (scheme.length + 1)).any isJsWsU = false := by
  obtain ⟨rest, hdec, hws⟩ := findScheme_spec decoded scheme h
  rw [hdec, take_append_singleton]
  rw [List.any_append]
  have h1 : scheme.any isJsWsU = false := by
    rw [List.any_eq_false]
    intro u hu
    simp [hws u hu]
  rw [h1]
  rfl

/-- C2 counterexample: `&#1;` decodes to a schemeless value, which the
claim says is accepted as relative, yet `sanitizeHref` rejects it (the
control-character check precedes the scheme gate). -/
theorem c2_counterexample :
    decodeEntities (unitsOf ("&#1;")) = Except.ok [1] ∧
    findScheme [1] = none ∧
    sanitizeHref (unitsOf ("&#1;")) = Except.ok none :=
  ⟨rfl, rfl, rfl⟩

/-- C2 (amended): when decoding succeeds and the decoded value contains no
ASCII control character, a value with a leading scheme is accepted exactly
when the scheme lowercases to http or https, and a schemeless value is
accepted as relative (with spaces normalized). -/
theorem c2_amended (raw decoded : List Nat)
    (h : decodeEntities raw = Except.ok decoded)
    (hc : decoded.any isCtrlU = false) :
    (findScheme decoded = none →
      sanitizeHref raw = Except.ok (some (replaceSpaces decoded))) ∧
    (∀ scheme, findScheme decoded = some scheme →
      ((∃ v, sanitizeHref raw = Except.ok (some v)) ↔
        (lowerU scheme = unitsOf ("http") ∨ lowerU scheme = unitsOf ("https")))) := by
  by_cases hr : raw = []
  · have hdec : decoded = [] := by
      rw [hr] at h
      have : decodeEntities [] = Except.ok [] := rfl
      rw [this] at h
      exact (Except.ok.inj h).symm
    constructor
    · intro _
      rw [hr, hdec]
      rfl
    · intro scheme hs
      rw [hdec] at hs
      exact absurd hs (by simp [findScheme])
  · have hbody : sanitizeHref raw =
        (if decoded.any isCtrlU = true then pure none
         else match findScheme decoded with
           | some scheme =>
             if lowerU scheme = unitsOf ("http") ∨ lowerU scheme = unitsOf ("https") then
               if (decoded.take (scheme.length + 1)).any isJsWsU = true then pure none
               else pure (some (replaceSpaces decoded))
             else pure none
           | none => pure (some (replaceSpaces decoded))) := by
      unfold sanitizeHref
      rw [if_neg hr]
      simp only [bind, Except.bind, h]
    constructor
    · intro hn
      have hres : sanitizeHref raw = pure (some (replaceSpaces decoded)) := by
        rw [hbody, hc, hn]
        rfl
      rw [hres]
      rfl
    · intro scheme hs
      have hsome : sanitizeHref raw =
          (if lowerU scheme = unitsOf ("http") ∨ lowerU scheme = unitsOf ("https") then
            (if (decoded.take (scheme.length + 1)).any isJsWsU = true then pure none
             else pure (some (replaceSpaces decoded)))
           else pure none) := by
        rw [hbody, hc, hs]
        rfl
      constructor
      · rintro ⟨v, hv⟩
        by_contra hh
        rw [hsome, if_neg hh] at hv
        simp [pure, Except.pure] at hv
      · intro hh
        refine ⟨replaceSpaces decoded, ?_⟩
        rw [hsome, if_pos hh, scheme_ws_check_false decoded scheme hs]
        rfl

/-- C2 witness: the entity-obfuscated payload decodes to a javascript
scheme and is rejected. -/
theorem c2_amended_witness :
    ¬ ∃ v, sanitizeHref (unitsOf ("jav&#x61;script:1")) = Except.ok (some v) := by
  intro hv
  have h2 := ((c2_amended (unitsOf ("jav&#x61;script:1")) (unitsOf ("javascript:1"))
      (by rfl) (by rfl)).2 (unitsOf ("javascript")) (by rfl)).mp hv
  revert h2
  decide

/-!
Span discipline of the tokenizer.  Each token-producing event contributes
one half-open span; `spansOk f l g` says the spans of `l` are ordered,
start no earlier than the frontier `f`, and leave the frontier at `g`.
-/

/-- The token span an event contributes, if any. -/
def spanOfEvt : Evt → Option (Int × Int)
  | Evt.text s e => some (s, e)
  | Evt.openTagEnd _ ts te => some (ts, te + 1)
  | Evt.selfClosing _ ts te => some (ts, te + 1)
  | Evt.closeTag _ _ ts te => some (ts, te + 1)
  | _ => none

/-- Ordered spans advancing the frontier from `f` to `g`. -/
def spansOk : Int → List (Int × Int) → Int → Prop
  | f, [], g => g = f
  | f, (s, e) :: rest, g => f ≤ s ∧ s ≤ e ∧ spansOk e rest g

/-- `spansOk` composes over concatenation. -/
theorem spansOk_append {f m g : Int} {l1 l2 : List (Int × Int)}
    (h1 : spansOk f l1 m) (h2 : spansOk m l2 g) : spansOk f (l1 ++ l2) g := by
  induction l1 generalizing f with
  | nil =>
    have : m = f := h1
    simpa [this] using h2
  | cons p rest ih =>
    obtain ⟨s, e⟩ := p
    obtain ⟨hfs, hse, hrest⟩ := h1
    exact ⟨hfs, hse, ih hrest⟩

/-- The frontier never moves backwards, and every span is bounded. -/
theorem spansOk_bounds {f g : Int} {l : List (Int × Int)} (h : spansOk f l g) :
    f ≤ g ∧ ∀ p ∈ l, f ≤ p.1 ∧ p.1 ≤ p.2 ∧ p.2 ≤ g := by
  induction l generalizing f with
  | nil =>
    have : g = f := h
    exact ⟨le_of_eq this.symm, by simp⟩
  | cons p rest ih =>
    obtain ⟨s, e⟩ := p
    obtain ⟨hfs, hse, hrest⟩ := h
    obtain ⟨heg, hall⟩ := ih hrest
    refine ⟨by omega, ?_⟩
    intro q hq
    rcases List.mem_cons.mp hq with h1 | h2
    · rw [h1]; exact ⟨hfs, hse, heg⟩
    · obtain ⟨a, b, c⟩ := hall q h2
      exact ⟨by omega, b, c⟩

/-- Consecutive spans do not overlap. -/
theorem spansOk_chain {f g : Int} {l : List (Int × Int)} (h : spansOk f l g) :
    l.Chain' (fun p q => p.2 ≤ q.1) := by
  induction l generalizing f with
  | nil => exact List.chain'_nil
  | cons p rest ih =>
    obtain ⟨s, e⟩ := p
    obtain ⟨_, _, hrest⟩ := h
    refine List.chain'_cons'.mpr ⟨?_, ih hrest⟩
    intro q hq
    cases rest with
    | nil => simp at hq
    | cons r rr =>
      obtain ⟨her, _, _⟩ := hrest
      simp only [List.head?_cons, Option.mem_def, Option.some.injEq] at hq
      rw [← hq]
      exact her

/-- Frontier update as a fold. -/
def lastEndD (f : Int) (l : List (Int × Int)) : Int :=
  l.foldl (fun _ p => p.2) f

/-- A `spansOk` certificate determines the final frontier. -/
theorem spansOk_lastEndD {f g : Int} {l : List (Int × Int)} (h : spansOk f l g) :
    lastEndD f l = g := by
  induction l generalizing f with
  | nil => exact h.symm
  | cons p rest ih =>
    obtain ⟨s, e⟩ := p
    obtain ⟨_, _, hrest⟩ := h
    simpa [lastEndD, List.foldl_cons] using ih hrest

/-- Scan-state invariant at index `i` with frontier `f`: emitted tokens
end at or before `f ≤ i`, and the in-progress section markers sit between
the frontier and the cursor. -/
def stInv (i : Nat) (st : TkSt) (f : Int) : Prop :=
  0 ≤ f ∧ f ≤ (i : Int) ∧
  (match st.state with
   | TState.text => f ≤ st.sectionStart ∧ st.sectionStart ≤ (i : Int)
   | TState.beforeTagName =>
     f ≤ st.sectionStart ∧ st.sectionStart ≤ (i : Int) ∧ st.tagStart = st.sectionStart
   | TState.beforeClosingTagName =>
     f ≤ st.sectionStart ∧ st.sectionStart ≤ (i : Int) ∧
     f ≤ st.tagStart ∧ st.tagStart ≤ (i : Int)
   | TState.afterClosingTagName => True
   | _ => f ≤ st.tagStart ∧ st.tagStart ≤ (i : Int))

/-- Specification pattern for one handler invocation. -/
def fnSpec (p : TkSt × List Evt) (i : Nat) (f : Int) : Prop :=
  ∃ g, spansOk f (p.2.filterMap spanOfEvt) g ∧ stInv (i + 1) p.1 g

theorem stateText_spec (c : Char) (i : Nat) (st : TkSt) (f : Int)
    (hs : st.state = TState.text) (h0 : 0 ≤ f) (hfi : f ≤ (i : Int))
    (hfs : f ≤ st.sectionStart) (hsi : st.sectionStart ≤ (i : Int)) :
    fnSpec (stateText c i st) i f := by
  unfold fnSpec stateText
  by_cases hc : c = '<'
  · rw [if_pos hc]
    by_cases hgt : (i : Int) > st.sectionStart
    · rw [if_pos hgt]
      refine ⟨i, ?_, ?_⟩
      · simp only [List.filterMap, spanOfEvt, spansOk]
        exact ⟨hfs, by omega, by trivial⟩
      · simp only [stInv, and_true]
        try trivial
        try omega
    · rw [if_neg hgt]
      refine ⟨f, by trivial, ?_⟩
      simp only [stInv, and_true]
      try trivial
      try omega
  · rw [if_neg hc]
    refine ⟨f, by trivial, ?_⟩
    simp only [stInv, hs, and_true]
    try trivial
    try omega

theorem stateBeforeAttributeName_spec (c : Char) (i : Nat) (st : TkSt) (f : Int)
    (hs : st.state = TState.beforeAttributeName) (h0 : 0 ≤ f) (hfi : f ≤ (i : Int))
    (hft : f ≤ st.tagStart) (hti : st.tagStart ≤ (i : Int)) :
    fnSpec (stateBeforeAttributeName c i st) i f := by
  unfold fnSpec stateBeforeAttributeName
  by_cases hgt : c = '>'
  · rw [if_pos hgt]
    refine ⟨(i : Int) + 1, ?_, ?_⟩
    · simp only [List.filterMap, spanOfEvt, spansOk]
      exact ⟨hft, by omega, by trivial⟩
    · simp only [stInv, and_true]
      try trivial
      try omega
  · rw [if_neg hgt]
    by_cases hsl : c = '/'
    · rw [if_pos hsl]
      refine ⟨f, by trivial, ?_⟩
      simp only [stInv, and_true]
      try trivial
      try omega
    · rw [if_neg hsl]
      by_cases hws : !isWhitespaceC c
      · rw [if_pos hws]
        refine ⟨f, by trivial, ?_⟩
        simp only [stInv, and_true]
        try trivial
        try omega
      · rw [if_neg hws]
        refine ⟨f, by trivial, ?_⟩
        simp only [stInv, hs]
        omega

theorem stateAfterClosingTagName_spec (c : Char) (i : Nat) (st : TkSt) (f : Int)
    (hs : st.state = TState.afterClosingTagName) (h0 : 0 ≤ f)
    (hfi : f ≤ (i : Int) + 1) :
    fnSpec (stateAfterClosingTagName c i st) i f := by
  unfold fnSpec stateAfterClosingTagName
  by_cases hgt : c = '>'
  · rw [if_pos hgt]
    refine ⟨f, by trivial, ?_⟩
    simp only [stInv, and_true]
    try trivial
    try omega
  · rw [if_neg hgt]
    refine ⟨f, by trivial, ?_⟩
    simp only [stInv, hs, and_true]
    try trivial
    try omega

theorem stateBeforeTagName_spec (c : Char) (i : Nat) (st : TkSt) (f : Int)
    (hs : st.state = TState.beforeTagName) (h0 : 0 ≤ f) (hfi : f ≤ (i : Int))
    (hfs : f ≤ st.sectionStart) (hsi : st.sectionStart ≤ (i : Int))
    (hts : st.tagStart = st.sectionStart) :
    fnSpec (stateBeforeTagName c i st) i f := by
  unfold stateBeforeTagName
  by_cases ha : isASCIIAlphaC c = true
  · rw [if_pos ha]
    refine ⟨f, by trivial, ?_⟩
    simp only [stInv, and_true]
    try trivial
    try omega
  · rw [if_neg ha]
    by_cases hsl : c = '/'
    · rw [if_pos hsl]
      refine ⟨f, by trivial, ?_⟩
      simp only [stInv, hs, and_true]
      try trivial
      try omega
    · rw [if_neg hsl]
      exact stateText_spec c i { st with state := TState.text } f rfl h0 hfi hfs hsi

theorem stateInTagName_spec (c : Char) (i : Nat) (st : TkSt) (f : Int)
    (hs : st.state = TState.inTagName) (h0 : 0 ≤ f) (hfi : f ≤ (i : Int))
    (hft : f ≤ st.tagStart) (hti : st.tagStart ≤ (i : Int)) :
    fnSpec (stateInTagName c i st) i f := by
  unfold stateInTagName
  by_cases hc : isEndOfTagSectionC c = true
  · rw [if_pos hc]
    obtain ⟨g, hsp, hinv⟩ := stateBeforeAttributeName_spec c i
      { st with sectionStart := -1, state := TState.beforeAttributeName } f rfl h0 hfi hft hti
    exact ⟨g, by simpa [spanOfEvt] using hsp, hinv⟩
  · rw [if_neg hc]
    refine ⟨f, by trivial, ?_⟩
    simp only [stInv, hs, and_true]
    try trivial
    try omega

theorem stateBeforeClosingTagName_spec (c : Char) (i : Nat) (st : TkSt) (f : Int)
    (hs : st.state = TState.beforeClosingTagName) (h0 : 0 ≤ f) (hfi : f ≤ (i : Int))
    (hfs : f ≤ st.sectionStart) (hsi : st.sectionStart ≤ (i : Int))
    (hft : f ≤ st.tagStart) (hti : st.tagStart ≤ (i : Int)) :
    fnSpec (stateBeforeClosingTagName c i st) i f := by
  unfold stateBeforeClosingTagName
  by_cases hws : isWhitespaceC c = true
  · rw [if_pos hws]
    refine ⟨f, by trivial, ?_⟩
    simp only [stInv, hs, and_true]
    try trivial
    try omega
  · rw [if_neg hws]
    by_cases hgt : c = '>'
    · rw [if_pos hgt]
      refine ⟨f, by trivial, ?_⟩
      simp only [stInv, and_true]
      try trivial
      try omega
    · rw [if_neg hgt]
      by_cases ha : isASCIIAlphaC c = true
      · rw [if_pos ha]
        refine ⟨f, by trivial, ?_⟩
        simp only [stInv, and_true]
        try trivial
        try omega
      · rw [if_neg ha]
        refine ⟨f, by trivial, ?_⟩
        simp only [stInv, hs, and_true]
        try trivial
        try omega

theorem stateInClosingTagName_spec (c : Char) (i : Nat) (st : TkSt) (f : Int)
    (hs : st.state = TState.inClosingTagName) (h0 : 0 ≤ f) (hfi : f ≤ (i : Int))
    (hft : f ≤ st.tagStart) (hti : st.tagStart ≤ (i : Int)) :
    fnSpec (stateInClosingTagName c i st) i f := by
  unfold stateInClosingTagName
  by_cases hc : (c = '>' || isWhitespaceC c) = true
  · rw [if_pos hc]
    obtain ⟨g, hsp, hinv⟩ := stateAfterClosingTagName_spec c i
      { st with sectionStart := -1, state := TState.afterClosingTagName }
      ((i : Int) + 1) rfl (by omega) (by omega)
    refine ⟨g, ?_, hinv⟩
    simp only [List.filterMap_cons, spanOfEvt]
    have hone : spansOk f [(st.tagStart, (i : Int) + 1)] ((i : Int) + 1) :=
      ⟨hft, by omega, by trivial⟩
    exact spansOk_append hone hsp
  · rw [if_neg hc]
    refine ⟨f, by trivial, ?_⟩
    simp only [stInv, hs, and_true]
    try trivial
    try omega

theorem stateInSelfClosingTag_spec (c : Char) (i : Nat) (st : TkSt) (f : Int)
    (hs : st.state = TState.inSelfClosingTag) (h0 : 0 ≤ f) (hfi : f ≤ (i : Int))
    (hft : f ≤ st.tagStart) (hti : st.tagStart ≤ (i : Int)) :
    fnSpec (stateInSelfClosingTag c i st) i f := by
  unfold stateInSelfClosingTag
  by_cases hgt : c = '>'
  · rw [if_pos hgt]
    refine ⟨(i : Int) + 1, ?_, ?_⟩
    · simp only [List.filterMap, spanOfEvt, spansOk]
      exact ⟨hft, by omega, by trivial⟩
    · simp only [stInv, and_true]
      try trivial
      try omega
  · rw [if_neg hgt]
    by_cases hws : !isWhitespaceC c
    · rw [if_pos hws]
      exact stateBeforeAttributeName_spec c i
        { st with state := TState.beforeAttributeName } f rfl h0 hfi hft hti
    · rw [if_neg hws]
      refine ⟨f, by trivial, ?_⟩
      simp only [stInv, hs, and_true]
      try trivial
      try omega

theorem stateAfterAttributeName_spec (c : Char) (i : Nat) (st : TkSt) (f : Int)
    (hs : st.state = TState.afterAttributeName) (h0 : 0 ≤ f) (hfi : f ≤ (i : Int))
    (hft : f ≤ st.tagStart) (hti : st.tagStart ≤ (i : Int)) :
    fnSpec (stateAfterAttributeName c i st) i f := by
  unfold stateAfterAttributeName
  by_cases he : c = '='
  · rw [if_pos he]
    refine ⟨f, by trivial, ?_⟩
    simp only [stInv, and_true]
    try trivial
    try omega
  · rw [if_neg he]
    by_cases hc : (c = '/' || c = '>') = true
    · rw [if_pos hc]
      obtain ⟨g, hsp, hinv⟩ := stateBeforeAttributeName_spec c i
        { st with sectionStart := -1, state := TState.beforeAttributeName } f rfl h0 hfi hft hti
      exact ⟨g, by simpa [spanOfEvt] using hsp, hinv⟩
    · rw [if_neg hc]
      by_cases hws : !isWhitespaceC c
      · rw [if_pos hws]
        refine ⟨f, ?_, ?_⟩
        · simp only [List.filterMap, spanOfEvt]
          trivial
        · simp only [stInv, and_true]
          try trivial
          try omega
      · rw [if_neg hws]
        refine ⟨f, by trivial, ?_⟩
        simp only [stInv, hs, and_true]
        try trivial
        try omega

theorem stateInAttributeName_spec (c : Char) (i : Nat) (st : TkSt) (f : Int)
    (hs : st.state = TState.inAttributeName) (h0 : 0 ≤ f) (hfi : f ≤ (i : Int))
    (hft : f ≤ st.tagStart) (hti : st.tagStart ≤ (i : Int)) :
    fnSpec (stateInAttributeName c i st) i f := by
  unfold stateInAttributeName
  by_cases hc : (c = '=' || isEndOfTagSectionC c) = true
  · rw [if_pos hc]
    obtain ⟨g, hsp, hinv⟩ := stateAfterAttributeName_spec c i
      { st with sectionStart := (i : Int), state := TState.afterAttributeName } f rfl h0 hfi hft hti
    exact ⟨g, by simpa [spanOfEvt] using hsp, hinv⟩
  · rw [if_neg hc]
    refine ⟨f, by trivial, ?_⟩
    simp only [stInv, hs, and_true]
    try trivial
    try omega

theorem stateInAttributeValueNoQuotes_spec (c : Char) (i : Nat) (st : TkSt) (f : Int)
    (hs : st.state = TState.inAttributeValueNq) (h0 : 0 ≤ f) (hfi : f ≤ (i : Int))
    (hft : f ≤ st.tagStart) (hti : st.tagStart ≤ (i : Int)) :
    fnSpec (stateInAttributeValueNoQuotes c i st) i f := by
  unfold stateInAttributeValueNoQuotes
  by_cases hc : (isWhitespaceC c || c = '>') = true
  · rw [if_pos hc]
    obtain ⟨g, hsp, hinv⟩ := stateBeforeAttributeName_spec c i
      { st with sectionStart := -1, state := TState.beforeAttributeName } f rfl h0 hfi hft hti
    exact ⟨g, by simpa [spanOfEvt] using hsp, hinv⟩
  · rw [if_neg hc]
    refine ⟨f, by trivial, ?_⟩
    simp only [stInv, hs, and_true]
    try trivial
    try omega

theorem stateBeforeAttributeValue_spec (c : Char) (i : Nat) (st : TkSt) (f : Int)
    (hs : st.state = TState.beforeAttributeValue) (h0 : 0 ≤ f) (hfi : f ≤ (i : Int))
    (hft : f ≤ st.tagStart) (hti : st.tagStart ≤ (i : Int)) :
    fnSpec (stateBeforeAttributeValue c i st) i f := by
  unfold stateBeforeAttributeValue
  by_cases hd : c = quoteD
  · rw [if_pos hd]
    refine ⟨f, by trivial, ?_⟩
    simp only [stInv, and_true]
    try trivial
    try omega
  · rw [if_neg hd]
    by_cases hq : c = quoteS
    · rw [if_pos hq]
      refine ⟨f, by trivial, ?_⟩
      simp only [stInv, and_true]
      try trivial
      try omega
    · rw [if_neg hq]
      by_cases hws : !isWhitespaceC c
      · rw [if_pos hws]
        exact stateInAttributeValueNoQuotes_spec c i
          { st with sectionStart := (i : Int), state := TState.inAttributeValueNq }
          f rfl h0 hfi hft hti
      · rw [if_neg hws]
        refine ⟨f, by trivial, ?_⟩
        simp only [stInv, hs, and_true]
        try trivial
        try omega

theorem handleInAttributeValue_spec (c : Char) (i : Nat) (q : Char) (st : TkSt) (f : Int)
    (hs : st.state = TState.inAttributeValueDq ∨ st.state = TState.inAttributeValueSq)
    (h0 : 0 ≤ f) (hfi : f ≤ (i : Int))
    (hft : f ≤ st.tagStart) (hti : st.tagStart ≤ (i : Int)) :
    fnSpec (handleInAttributeValue c i q st) i f := by
  unfold handleInAttributeValue
  by_cases hc : c = q
  · rw [if_pos hc]
    refine ⟨f, ?_, ?_⟩
    · simp only [List.filterMap, spanOfEvt]
      trivial
    · simp only [stInv, and_true]
      try trivial
      try omega
  · rw [if_neg hc]
    refine ⟨f, by trivial, ?_⟩
    rcases hs with h1 | h1 <;>
      · simp only [stInv, h1, and_true]
        try trivial
        try omega

theorem stepTk_spec (c : Char) (i : Nat) (st : TkSt) (f : Int) (h : stInv i st f) :
    fnSpec (stepTk c i st) i f := by
  cases hq : st.state with
  | text =>
    simp only [stInv, hq] at h
    obtain ⟨h0, hfi, hfs, hsi⟩ := h
    simpa only [stepTk, hq] using stateText_spec c i st f hq h0 hfi hfs hsi
  | beforeTagName =>
    simp only [stInv, hq] at h
    obtain ⟨h0, hfi, hfs, hsi, hts⟩ := h
    simpa only [stepTk, hq] using stateBeforeTagName_spec c i st f hq h0 hfi hfs hsi hts
  | inTagName =>
    simp only [stInv, hq] at h
    obtain ⟨h0, hfi, hft, hti⟩ := h
    simpa only [stepTk, hq] using stateInTagName_spec c i st f hq h0 hfi hft hti
  | beforeClosingTagName =>
    simp only [stInv, hq] at h
    obtain ⟨h0, hfi, hfs, hsi, hft, hti⟩ := h
    simpa only [stepTk, hq] using
      stateBeforeClosingTagName_spec c i st f hq h0 hfi hfs hsi hft hti
  | inClosingTagName =>
    simp only [stInv, hq] at h
    obtain ⟨h0, hfi, hft, hti⟩ := h
    simpa only [stepTk, hq] using stateInClosingTagName_spec c i st f hq h0 hfi hft hti
  | afterClosingTagName =>
    simp only [stInv, hq] at h
    obtain ⟨h0, hfi, -⟩ := h
    simpa only [stepTk, hq] using
      stateAfterClosingTagName_spec c i st f hq h0 (by omega)
  | beforeAttributeName =>
    simp only [stInv, hq] at h
    obtain ⟨h0, hfi, hft, hti⟩ := h
    simpa only [stepTk, hq] using stateBeforeAttributeName_spec c i st f hq h0 hfi hft hti
  | inAttributeName =>
    simp only [stInv, hq] at h
    obtain ⟨h0, hfi, hft, hti⟩ := h
    simpa only [stepTk, hq] using stateInAttributeName_spec c i st f hq h0 hfi hft hti
  | afterAttributeName =>
    simp only [stInv, hq] at h
    obtain ⟨h0, hfi, hft, hti⟩ := h
    simpa only [stepTk, hq] using stateAfterAttributeName_spec c i st f hq h0 hfi hft hti
  | beforeAttributeValue =>
    simp only [stInv, hq] at h
    obtain ⟨h0, hfi, hft, hti⟩ := h
    simpa only [stepTk, hq] using stateBeforeAttributeValue_spec c i st f hq h0 hfi hft hti
  | inAttributeValueDq =>
    simp only [stInv, hq] at h
    obtain ⟨h0, hfi, hft, hti⟩ := h
    simpa only [stepTk, hq] using
      handleInAttributeValue_spec c i quoteD st f (Or.inl hq) h0 hfi hft hti
  | inAttributeValueSq =>
    simp only [stInv, hq] at h
    obtain ⟨h0, hfi, hft, hti⟩ := h
    simpa only [stepTk, hq] using
      handleInAttributeValue_spec c i quoteS st f (Or.inr hq) h0 hfi hft hti
  | inAttributeValueNq =>
    simp only [stInv, hq] at h
    obtain ⟨h0, hfi, hft, hti⟩ := h
    simpa only [stepTk, hq] using
      stateInAttributeValueNoQuotes_spec c i st f hq h0 hfi hft hti
  | inSelfClosingTag =>
    simp only [stInv, hq] at h
    obtain ⟨h0, hfi, hft, hti⟩ := h
    simpa only [stepTk, hq] using stateInSelfClosingTag_spec c i st f hq h0 hfi hft hti

/-- Main scan-loop invariant: the emitted spans are ordered, start at or
after the incoming frontier, and the final frontier stays within the
input. -/
theorem runTk_spec (cs : List Char) : ∀ (i : Nat) (st : TkSt) (f : Int),
    stInv i st f →
    ∃ g, spansOk f ((runTk cs i st).filterMap spanOfEvt) g ∧
      g ≤ (i : Int) + cs.length := by
  induction cs with
  | nil =>
    intro i st f h
    simp only [runTk, finishTk]
    by_cases h1 : st.sectionStart ≥ (i : Int)
    · rw [if_pos h1]
      obtain ⟨h0, hfi, -⟩ := h
      exact ⟨f, by trivial, by simpa using hfi⟩
    · rw [if_neg h1]
      by_cases h2 : st.state = TState.text
      · rw [if_pos h2]
        simp only [stInv, h2] at h
        obtain ⟨h0, hfi, hfs, hsi⟩ := h
        refine ⟨i, ?_, by simp⟩
        simp only [List.filterMap, spanOfEvt, spansOk]
        exact ⟨hfs, by omega, by trivial⟩
      · rw [if_neg h2]
        obtain ⟨h0, hfi, -⟩ := h
        exact ⟨f, by trivial, by simpa using hfi⟩
  | cons c cs ih =>
    intro i st f h
    simp only [runTk]
    obtain ⟨g1, hsp1, hinv1⟩ := stepTk_spec c i st f h
    obtain ⟨g, hsp2, hg⟩ := ih (i + 1) (stepTk c i st).1 g1 hinv1
    refine ⟨g, ?_, ?_⟩
    · rw [List.filterMap_append]
      exact spansOk_append hsp1 hsp2
    · simp only [List.length_cons]
      push_cast at hg ⊢
      omega

/-- Span of an assembled token. -/
def spanOfTok (t : Token) : Int × Int := (tokStart t, tokEnd t)

/-- The assembler turns each token event into one token with exactly the
event's span, in order, and tracks the last token end in `endIndex`. -/
theorem foldl_applyEvt_spans (b : List Char) (evts : List Evt) : ∀ (A : AsmSt),
    ((evts.foldl (applyEvt b) A).tokens.map spanOfTok =
      A.tokens.map spanOfTok ++ evts.filterMap spanOfEvt) ∧
    ((evts.foldl (applyEvt b) A).endIndex =
      lastEndD A.endIndex (evts.filterMap spanOfEvt)) := by
  induction evts with
  | nil => intro A; simp [lastEndD]
  | cons e es ih =>
    intro A
    obtain ⟨ih1, ih2⟩ := ih (applyEvt b A e)
    cases e <;>
      · simp only [applyEvt] at ih1 ih2
        constructor <;>
          simp [List.foldl_cons, ih1, ih2, applyEvt, List.filterMap_cons, spanOfEvt,
            spanOfTok, tokStart, tokEnd, lastEndD, List.append_assoc]

/-- A nonempty ordered span list ends at the final frontier. -/
theorem spansOk_getLast {f g : Int} {l : List (Int × Int)}
    (h : spansOk f l g) (hne : l ≠ []) : ∃ p, l.getLast? = some p ∧ p.2 = g := by
  induction l generalizing f with
  | nil => exact absurd rfl hne
  | cons p rest ih =>
    obtain ⟨s, e⟩ := p
    obtain ⟨-, -, hrest⟩ := h
    cases rest with
    | nil =>
      exact ⟨(s, e), rfl, hrest.symm⟩
    | cons r rr =>
      obtain ⟨q, hq, hq2⟩ := ih hrest (by simp)
      exact ⟨q, by simpa [List.getLast?] using hq, hq2⟩

/-- Structure of the assembled token stream of `tokenizeHtml`: ordered
spans from frontier 0, ending exactly at the input length whenever the
input is nonempty. -/
theorem tokenizeHtml_struct (buffer : List Char) :
    ∃ g, spansOk 0 ((tokenizeHtml buffer).map spanOfTok) g ∧
      g ≤ (buffer.length : Int) ∧
      (buffer ≠ [] → g = (buffer.length : Int) ∧ tokenizeHtml buffer ≠ []) := by
  have hinit : stInv 0 (⟨TState.text, 0, 0⟩ : TkSt) 0 := by
    simp only [stInv]
    try trivial
    try omega
  obtain ⟨g, hsp, hg⟩ := runTk_spec buffer 0 ⟨TState.text, 0, 0⟩ 0 hinit
  obtain ⟨ht, he⟩ := foldl_applyEvt_spans buffer (tokenize buffer) asmInit
  have hmap : ((tokenize buffer).foldl (applyEvt buffer) asmInit).tokens.map spanOfTok =
      (tokenize buffer).filterMap spanOfEvt := by simpa [asmInit] using ht
  have hend : ((tokenize buffer).foldl (applyEvt buffer) asmInit).endIndex = g := by
    rw [he]
    simpa [asmInit] using spansOk_lastEndD hsp
  have hsp' : spansOk 0
      (((tokenize buffer).foldl (applyEvt buffer) asmInit).tokens.map spanOfTok) g := by
    rw [hmap]
    simpa [tokenize] using hsp
  have hg' : g ≤ (buffer.length : Int) := by simpa [tokenize] using hg
  unfold tokenizeHtml
  by_cases hlt : ((tokenize buffer).foldl (applyEvt buffer) asmInit).endIndex <
      (buffer.length : Int)
  · rw [if_pos hlt]
    rw [hend] at hlt
    refine ⟨buffer.length, ?_, le_refl _, fun _ => ⟨rfl, by simp⟩⟩
    rw [List.map_append, hend]
    refine spansOk_append hsp' ?_
    simp only [List.map_cons, List.map_nil, spanOfTok, tokStart, tokEnd, spansOk]
    exact ⟨le_refl g, by omega, by trivial⟩
  · rw [if_neg hlt]
    rw [hend] at hlt
    have hge : g = (buffer.length : Int) ∨ buffer = [] := by
      by_cases hb : buffer = []
      · exact Or.inr hb
      · exact Or.inl (by omega)
    refine ⟨g, hsp', hg', fun hne => ?_⟩
    have hgl : g = (buffer.length : Int) := by
      rcases hge with h1 | h1
      · exact h1
      · exact absurd h1 hne
    refine ⟨hgl, ?_⟩
    intro hemp
    have : ((tokenize buffer).foldl (applyEvt buffer) asmInit).tokens.map spanOfTok = [] := by
      rw [hemp]; rfl
    rw [this] at hsp'
    have hg0 : g = 0 := hsp'
    have : buffer.length = 0 := by omega
    exact hne (List.eq_nil_of_length_eq_zero this)

/-- C4: the tokenizer and flush logic never lose trailing input — for any
nonempty input the token list is nonempty and its final token ends exactly
at the input length, even when the scan stops inside an unterminated tag,
attribute name, or quoted value (the remainder is flushed as a final Text
token by the parser's end handler). -/
theorem c4_flush_total (s : List Char) (h : s ≠ []) :
    tokenizeHtml s ≠ [] ∧
    ∃ t, (tokenizeHtml s).getLast? = some t ∧ tokEnd t = (s.length : Int) := by
  obtain ⟨g, hsp, hg, hne⟩ := tokenizeHtml_struct s
  obtain ⟨hgl, hnonempty⟩ := hne h
  refine ⟨hnonempty, ?_⟩
  have hmapne : (tokenizeHtml s).map spanOfTok ≠ [] := by
    simpa using hnonempty
  obtain ⟨p, hp, hp2⟩ := spansOk_getLast hsp hmapne
  rw [List.getLast?_map] at hp
  cases hlast : (tokenizeHtml s).getLast? with
  | none => rw [hlast] at hp; exact absurd hp (by simp)
  | some t =>
    rw [hlast] at hp
    refine ⟨t, rfl, ?_⟩
    have : spanOfTok t = p := by
      simpa using hp
    rw [← hgl, ← hp2, ← this]
    rfl

/-- C4 witness: an input ending inside a double-quoted attribute value. -/
theorem c4_flush_total_witness :
    tokenizeHtml (("<a h=\"x").toList) ≠ [] ∧
    ∃ t, (tokenizeHtml (("<a h=\"x").toList)).getLast? = some t ∧
      tokEnd t = ((("<a h=\"x").toList).length : Int) :=
  c4_flush_total (("<a h=\"x").toList) (by decide)

/-- Concatenation of the original text under every token span. -/
def spanConcat (buffer : List Char) (ts : List Token) : List Char :=
  (ts.map (fun t => jsSlice buffer (tokStart t) (tokEnd t))).flatten

/-- C5 counterexample: on `</div x>abc` the characters `x>` consumed in
the `AfterClosingTagName` state belong to no token span, so concatenating
the spans loses them — the union does not cover the input. -/
theorem c5_counterexample :
    spanConcat (("</div x>abc").toList) (tokenizeHtml (("</div x>abc").toList)) ≠
      ("</div x>abc").toList ∧
    spanConcat (("</div x>abc").toList) (tokenizeHtml (("</div x>abc").toList)) =
      ("</div abc").toList := by
  exact ⟨by decide, by decide⟩

/-- C5 (amended): token spans are non-overlapping, monotonically
increasing and lie inside the input, but their union need not cover the
input: characters consumed between a closing tag name and its `>` are
dropped, as the named input `</div x>abc` shows (it reconstructs to
`</div abc`). -/
theorem c5_amended :
    (∀ s : List Char,
      List.Chain' (fun a b => tokEnd a ≤ tokStart b) (tokenizeHtml s) ∧
      ∀ t ∈ tokenizeHtml s, 0 ≤ tokStart t ∧ tokStart t ≤ tokEnd t ∧
        tokEnd t ≤ (s.length : Int)) ∧
    spanConcat (("</div x>abc").toList) (tokenizeHtml (("</div x>abc").toList)) =
      ("</div abc").toList := by
  refine ⟨?_, by decide⟩
  intro s
  obtain ⟨g, hsp, hg, -⟩ := tokenizeHtml_struct s
  constructor
  · have hchain := spansOk_chain hsp
    rw [List.chain'_map] at hchain
    exact hchain
  · intro t ht
    obtain ⟨-, hall⟩ := spansOk_bounds hsp
    have hb := hall (spanOfTok t) (List.mem_map_of_mem spanOfTok ht)
    simp only [spanOfTok] at hb
    obtain ⟨h1, h2, h3⟩ := hb
    exact ⟨h1, h2, by omega⟩

/-!
Allow-list closure (C1).  The output is analysed as a concatenation of
per-token renderings; `SuffOK` states that every literal `<` in a string
is immediately followed either by `/` or by an allowed tag name and a
non-alphabetic terminator, which excludes `<B` occurrences for any
alphabetic `B` that is not a prefix of an allowed name.
-/

/-- Scan for a literal `<` immediately followed by the given name. -/
def hasLtName : List Char → List Char → Bool
  | [], _ => false
  | c :: cs, B => (decide (c = '<') && B.isPrefixOf cs) || hasLtName cs B

/-- Lowercasing never produces a `<` from another character. -/
theorem toLowerChar_ne_lt (c : Char) (h : c ≠ '<') : toLowerChar c ≠ '<' := by
  unfold toLowerChar
  by_cases hr : ('A' ≤ c && c ≤ 'Z') = true
  · rw [if_pos hr]
    have hn : 65 ≤ c.toNat ∧ c.toNat ≤ 90 := by
      simp [Bool.and_eq_true, Char.le_def] at hr
      exact hr
    have hvalid : (c.toNat + 32).isValidChar := Or.inl (by omega)
    have hv : (Char.ofNat (c.toNat + 32)).toNat = c.toNat + 32 := by
      unfold Char.ofNat
      split
      · rfl
      · exact absurd hvalid (by assumption)
    intro heq
    have h60 : (Char.ofNat (c.toNat + 32)).toNat = 60 := by rw [heq]; rfl
    rw [hv] at h60
    omega
  · rw [if_neg hr]
    exact h

/-- A `<` in a lowercased list comes from a `<` in the original. -/
theorem lt_mem_toLowerL (x : List Char) (h : '<' ∈ toLowerL x) : '<' ∈ x := by
  unfold toLowerL at h
  obtain ⟨a, ha, haeq⟩ := List.mem_map.mp h
  by_cases hlt : a = '<'
  · rw [← hlt]; exact ha
  · exact absurd haeq (toLowerChar_ne_lt a hlt)

/-- Admissible continuations after a literal `<` in sanitized output:
either a close-tag slash, or an allowed tag name followed by a space or
`>` terminator. -/
def GoodAfterLt (keys : List Char → Prop) (tail : List Char) : Prop :=
  (∃ rest, tail = '/' :: rest) ∨
  (∃ N c rest, tail = N ++ c :: rest ∧ keys N ∧ (c = ' ' ∨ c = '>'))

/-- Every literal `<` in the string has an admissible continuation. -/
def SuffOK (keys : List Char → Prop) (l : List Char) : Prop :=
  ∀ i tail, l.drop i = '<' :: tail → GoodAfterLt keys tail

theorem goodAfterLt_append {keys : List Char → Prop} {t l2 : List Char}
    (h : GoodAfterLt keys t) : GoodAfterLt keys (t ++ l2) := by
  rcases h with ⟨rest, hr⟩ | ⟨N, c, rest, hr, hk, hc⟩
  · exact Or.inl ⟨rest ++ l2, by simp [hr]⟩
  · exact Or.inr ⟨N, c, rest ++ l2, by simp [hr], hk, hc⟩

theorem suffOK_append {keys : List Char → Prop} {l1 l2 : List Char}
    (h1 : SuffOK keys l1) (h2 : SuffOK keys l2) : SuffOK keys (l1 ++ l2) := by
  intro i tail hdrop
  rw [List.drop_append_eq_append_drop] at hdrop
  by_cases hi : i < l1.length
  · have hz : i - l1.length = 0 := by omega
    rw [hz, List.drop_zero] at hdrop
    cases hd : l1.drop i with
    | nil =>
      rw [hd] at hdrop
      have : l1.length - i = 0 := by
        have := List.length_drop i l1
        rw [hd] at this
        simpa using this.symm
      omega
    | cons hdc t1 =>
      rw [hd] at hdrop
      simp only [List.cons_append, List.cons.injEq] at hdrop
      obtain ⟨hh, ht⟩ := hdrop
      rw [← ht]
      exact goodAfterLt_append (h1 i t1 (by rw [hd, hh]))
  · have hz : l1.drop i = [] := by
      apply List.drop_eq_nil_of_le
      omega
    rw [hz, List.nil_append] at hdrop
    exact h2 (i - l1.length) tail hdrop

theorem suffOK_of_no_lt {keys : List Char → Prop} {l : List Char}
    (h : '<' ∉ l) : SuffOK keys l := by
  intro i tail hdrop
  exfalso
  apply h
  apply List.drop_subset i
  rw [hdrop]
  exact List.mem_cons_self '<' tail

/-- Prefix of a list that is an initial segment plus one marked element:
the prefix either stays inside the segment or contains the marker. -/
theorem prefix_append_cons {α : Type} (N : List α) : ∀ (B : List α) (c : α) (rest : List α),
    B <+: N ++ c :: rest → B <+: N ∨ ∃ B2, B = N ++ c :: B2 := by
  induction N with
  | nil =>
    intro B c rest h
    cases B with
    | nil => exact Or.inl (List.nil_prefix)
    | cons b B2 =>
      rw [List.nil_append, List.cons_prefix_cons] at h
      exact Or.inr ⟨B2, by simp [h.1]⟩
  | cons n N2 ih =>
    intro B c rest h
    cases B with
    | nil => exact Or.inl (List.nil_prefix)
    | cons b B2 =>
      rw [List.cons_append, List.cons_prefix_cons] at h
      obtain ⟨hb, hB2⟩ := h
      rcases ih B2 c rest hB2 with h1 | ⟨B3, h1⟩
      · exact Or.inl (by rw [List.cons_prefix_cons]; exact ⟨hb, h1⟩)
      · exact Or.inr ⟨B3, by simp [hb, h1]⟩

/-- Core exclusion: a nonempty all-alphabetic name that is (lowercased)
a prefix of no key cannot appear right after any `<` of a `SuffOK`
string. -/
theorem hasLtName_eq_false {keys : List Char → Prop} (B : List Char)
    (hne : B ≠ []) (halpha : B.all isASCIIAlphaC = true)
    (hkeys : ∀ N, keys N → ¬ (toLowerL B <+: toLowerL N)) :
    ∀ (l : List Char), SuffOK keys l → hasLtName l B = false := by
  intro l
  induction l with
  | nil => intro _; rfl
  | cons c cs ih =>
    intro h
    have hcs : SuffOK keys cs := by
      intro i tail hdrop
      exact h (i + 1) tail (by simpa using hdrop)
    unfold hasLtName
    rw [ih hcs, Bool.or_false]
    by_cases hc : c = '<'
    · rw [Bool.and_eq_false_iff]
      right
      rw [Bool.eq_false_iff]
      intro hpre
      have hBcs : B <+: cs := List.isPrefixOf_iff_prefix.mp hpre
      have hgood : GoodAfterLt keys cs := h 0 cs (by rw [List.drop_zero, hc])
      obtain ⟨b, B2, hB⟩ : ∃ b B2, B = b :: B2 := by
        cases B with
        | nil => exact absurd rfl hne
        | cons b B2 => exact ⟨b, B2, rfl⟩
      have hballpha : isASCIIAlphaC b = true := by
        rw [hB, List.all_cons, Bool.and_eq_true] at halpha
        exact halpha.1
      rcases hgood with ⟨rest, hr⟩ | ⟨N, cc, rest, hr, hk, hcc⟩
      · rw [hr, hB, List.cons_prefix_cons] at hBcs
        rw [hBcs.1] at hballpha
        exact absurd hballpha (by decide)
      · rw [hr] at hBcs
        rcases prefix_append_cons N B cc rest hBcs with h1 | ⟨B3, h1⟩
        · exact hkeys N hk (h1.map toLowerChar)
        · have hccB : cc ∈ B := by
            rw [h1]
            exact List.mem_append_right N (List.mem_cons_self cc B3)
          have : isASCIIAlphaC cc = true := by
            rw [List.all_eq_true] at halpha
            exact halpha cc hccB
          rcases hcc with h2 | h2 <;> rw [h2] at this <;> exact absurd this (by decide)
    · simp [hc]

/-- Names admissible after `<`: lowercase-equal to some configured rule. -/
def keysP (opts : SanOptions) (N : List Char) : Prop :=
  ∃ r ∈ opts.allowedTags, toLowerL N = toLowerL r.tagName

theorem mapSet_mem {m : List (List Char × AllowedTag)} {k : List Char}
    {v : AllowedTag} {p : List Char × AllowedTag}
    (h : p ∈ mapSet m k v) : p ∈ m ∨ p = (k, v) := by
  unfold mapSet at h
  split at h
  · obtain ⟨q, hq, hqe⟩ := List.mem_map.mp h
    by_cases hk : q.1 = k
    · right
      rw [← hqe, if_pos hk]
    · left
      rw [← hqe, if_neg hk]
      exact hq
  · rcases List.mem_append.mp h with h1 | h1
    · exact Or.inl h1
    · exact Or.inr (by simpa using h1)

theorem foldl_mapSet_mem (rules : List AllowedTag) :
    ∀ (m : List (List Char × AllowedTag)) (p : List Char × AllowedTag),
    p ∈ rules.foldl (fun m tag => mapSet m (toLowerL tag.tagName) tag) m →
    p ∈ m ∨ ∃ r ∈ rules, p = (toLowerL r.tagName, r) := by
  induction rules with
  | nil => intro m p h; exact Or.inl h
  | cons t ts ih =>
    intro m p h
    rw [List.foldl_cons] at h
    rcases ih (mapSet m (toLowerL t.tagName) t) p h with h1 | ⟨r, hr, he⟩
    · rcases mapSet_mem h1 with h2 | h2
      · exact Or.inl h2
      · exact Or.inr ⟨t, List.mem_cons_self t ts, h2⟩
    · exact Or.inr ⟨r, List.mem_cons_of_mem t hr, he⟩

/-- Every entry of the compiled map is the lowercased name of a
configured rule, paired with a configured rule. -/
theorem buildMap_mem {opts : SanOptions} {p : List Char × AllowedTag}
    (h : p ∈ buildAllowedTagsMap opts) :
    ∃ r ∈ opts.allowedTags, p = (toLowerL r.tagName, r) := by
  unfold buildAllowedTagsMap at h
  rcases foldl_mapSet_mem opts.allowedTags [] p h with h1 | h1
  · exact absurd h1 (List.not_mem_nil p)
  · exact h1

/-- A successful lookup pins down the lowercased name and the rule. -/
theorem findAllowedTag_spec {m : List (List Char × AllowedTag)} {n : List Char}
    {rule : AllowedTag} (h : findAllowedTag m n = some rule) :
    ∃ p ∈ m, p.1 = toLowerL n ∧ p.2 = rule := by
  unfold findAllowedTag at h
  cases hf : m.find? (fun p => decide (p.1 = toLowerL n)) with
  | none => rw [hf] at h; exact absurd h (by simp)
  | some p =>
    rw [hf] at h
    refine ⟨p, List.mem_of_find?_eq_some hf, ?_, by simpa using h⟩
    have := List.find?_some hf
    simpa using this

/-- The allowed-tag lookup on the compiled map: the matched input name
lowercases to a configured rule name, and the rule is configured. -/
theorem findAllowedTag_buildMap {opts : SanOptions} {n : List Char} {rule : AllowedTag}
    (h : findAllowedTag (buildAllowedTagsMap opts) n = some rule) :
    keysP opts n ∧ rule ∈ opts.allowedTags := by
  obtain ⟨p, hp, hp1, hp2⟩ := findAllowedTag_spec h
  obtain ⟨r, hr, he⟩ := buildMap_mem hp
  constructor
  · refine ⟨r, hr, ?_⟩
    rw [← hp1, he]
  · rw [← hp2, he]
    exact hr

/-- The escape substitution never emits `<`. -/
theorem escChar_no_lt (c : Char) : '<' ∉ escChar c := by
  unfold escChar
  split
  · decide
  · split
    · decide
    · split
      · decide
      · split
        · decide
        · split
          · decide
          · rename_i h1 h2 h3 h4 h5
            intro hm
            rw [List.mem_singleton] at hm
            exact h2 hm.symm

theorem escapeText_no_lt (s : List Char) : '<' ∉ escapeText s := by
  unfold escapeText
  intro h
  obtain ⟨a, ha, hmem⟩ := List.mem_flatten.mp h
  obtain ⟨c, _, hc⟩ := List.mem_map.mp ha
  rw [← hc] at hmem
  exact escChar_no_lt c hmem

/-- A rendered attribute whose name holds no `<` contributes no `<`. -/
theorem renderAttr_no_lt {a : TagAttribute} (hn : '<' ∉ a.name) :
    '<' ∉ renderAttr a := by
  unfold renderAttr
  split <;> intro h <;>
    simp only [List.mem_cons, List.mem_append, List.mem_singleton] at h <;>
    casesm* _ ∨ _ <;>
    first
      | exact hn (by assumption)
      | exact escapeText_no_lt a.value (by assumption)
      | exact absurd (by assumption) (by decide)

theorem renderAttr_head (a : TagAttribute) : ∃ t, renderAttr a = ' ' :: t := by
  unfold renderAttr
  split
  · exact ⟨a.name, rfl⟩
  · exact ⟨_, rfl⟩

/-- Kept-attribute rendering: no `<` when no kept name holds one, and the
result is empty or begins with a space. -/
theorem processAttributes_no_lt {attrs : List TagAttribute} {rule : AllowedTag}
    {out : List Char} (h : processAttributes attrs rule = Except.ok out)
    (hn : ∀ a ∈ attrs, '<' ∉ a.name) :
    '<' ∉ out ∧ (out = [] ∨ ∃ t, out = ' ' :: t) := by
  induction attrs generalizing out with
  | nil =>
    have : out = [] := by
      simpa [processAttributes] using h.symm
    simp [this]
  | cons a rest ih =>
    simp only [processAttributes] at h
    cases hb : isAttributeAllowed a rule with
    | error e => rw [hb] at h; exact absurd h (by simp [Except.bind, bind])
    | ok keep =>
      rw [hb] at h
      cases hr : processAttributes rest rule with
      | error e => rw [hr] at h; exact absurd h (by simp [Except.bind, bind])
      | ok tail =>
        rw [hr] at h
        have hout : out = (if keep = true then renderAttr a else []) ++ tail := by
          have h2 := h
          simp [Except.bind, bind, pure, Except.pure] at h2
          exact h2.symm
        obtain ⟨iht, ihh⟩ := ih hr (fun x hx => hn x (List.mem_cons_of_mem a hx))
        have hna : '<' ∉ a.name := hn a (List.mem_cons_self a rest)
        by_cases hk : keep = true
        · rw [hout, if_pos hk]
          obtain ⟨t, hrt⟩ := renderAttr_head a
          constructor
          · intro hm
            rcases List.mem_append.mp hm with h1 | h1
            · exact renderAttr_no_lt hna h1
            · exact iht h1
          · right
            exact ⟨t ++ tail, by rw [hrt]; rfl⟩
        · rw [hout, if_neg hk, List.nil_append]
          exact ⟨iht, ihh⟩

/-- The flattened rendering of default entries: no `<`, and empty or
starting with a space. -/
theorem renderDefault_flatten_no_lt (lst : List (List Char × List Char))
    (hsub : ∀ kv ∈ lst, '<' ∉ kv.1) :
    '<' ∉ (lst.map renderDefault).flatten ∧
    ((lst.map renderDefault).flatten = [] ∨
      ∃ t, (lst.map renderDefault).flatten = ' ' :: t) := by
  induction lst with
  | nil => simp
  | cons kv rest ih =>
    obtain ⟨iht, -⟩ := ih (fun x hx => hsub x (List.mem_cons_of_mem kv hx))
    constructor
    · intro hm
      simp only [List.map_cons, List.flatten_cons] at hm
      rcases List.mem_append.mp hm with h1 | h1
      · have hk1 : '<' ∉ kv.1 := hsub kv (List.mem_cons_self kv rest)
        unfold renderDefault at h1
        simp only [List.mem_cons, List.mem_append, List.mem_singleton] at h1
        casesm* _ ∨ _ <;>
          first
            | exact hk1 (by assumption)
            | exact escapeText_no_lt kv.2 (by assumption)
            | exact absurd (by assumption) (by decide)
      · exact iht h1
    · right
      refine ⟨kv.1 ++ '=' :: quoteD ::
        (escapeText kv.2 ++ quoteD :: (rest.map renderDefault).flatten), ?_⟩
      simp [renderDefault]

/-- Injected defaults: no `<` when no default key holds one, and the
result is empty or begins with a space. -/
theorem addDefaultAttributes_no_lt (attrs : List TagAttribute) (rule : AllowedTag)
    (hk : ∀ kv ∈ rule.defaultAttributes, '<' ∉ kv.1) :
    '<' ∉ addDefaultAttributes attrs rule ∧
    (addDefaultAttributes attrs rule = [] ∨
      ∃ t, addDefaultAttributes attrs rule = ' ' :: t) := by
  unfold addDefaultAttributes
  rw [addDefault_foldl attrs rule.defaultAttributes [], List.nil_append]
  exact renderDefault_flatten_no_lt _
    (fun kv hkv => hk kv (List.mem_of_mem_filter hkv))

/-- Lowercasing preserves a `<` occurrence. -/
theorem lt_mem_toLowerL_of_mem {x : List Char} (h : '<' ∈ x) : '<' ∈ toLowerL x := by
  have heq : toLowerChar '<' = '<' := rfl
  exact heq ▸ List.mem_map_of_mem toLowerChar h

/-- A name matched by the compiled allow-list holds no `<` when no
configured rule name does. -/
theorem allowed_name_no_lt {opts : SanOptions} {n : List Char}
    (h : keysP opts n) (hrules : ∀ r ∈ opts.allowedTags, '<' ∉ r.tagName) :
    '<' ∉ n := by
  intro hmem
  obtain ⟨r, hr, heq⟩ := h
  have h2 : '<' ∈ toLowerL n := lt_mem_toLowerL_of_mem hmem
  rw [heq] at h2
  exact hrules r hr (lt_mem_toLowerL r.tagName h2)

/-- A string of the form `<` then a `<`-free admissible tail is `SuffOK`. -/
theorem suffOK_cons_lt {keys : List Char → Prop} {tl : List Char}
    (hno : '<' ∉ tl) (hgood : GoodAfterLt keys tl) : SuffOK keys ('<' :: tl) := by
  intro i tail hdrop
  cases i with
  | zero =>
    rw [List.drop_zero, List.cons.injEq] at hdrop
    rw [← hdrop.2]
    exact hgood
  | succ j =>
    exfalso
    apply hno
    apply List.drop_subset j
    rw [show ('<' :: tl).drop (j + 1) = tl.drop j from rfl] at hdrop
    rw [hdrop]
    exact List.mem_cons_self '<' tail

/-- Combined head of attribute string, defaults and closer. -/
theorem head_space_or_gt (a d cl : List Char)
    (ha : a = [] ∨ ∃ t, a = ' ' :: t) (hd : d = [] ∨ ∃ t, d = ' ' :: t)
    (hcl : ∃ c t, cl = c :: t ∧ (c = ' ' ∨ c = '>')) :
    ∃ c rest, a ++ (d ++ cl) = c :: rest ∧ (c = ' ' ∨ c = '>') := by
  obtain ⟨c0, t0, hc0, hc0e⟩ := hcl
  rcases ha with ha | ⟨ta, ha⟩
  · rcases hd with hd | ⟨td, hd⟩
    · exact ⟨c0, t0, by simp [ha, hd, hc0], hc0e⟩
    · exact ⟨' ', td ++ cl, by simp [ha, hd], Or.inl rfl⟩
  · exact ⟨' ', ta ++ (d ++ cl), by simp [ha], Or.inl rfl⟩

/-- Every per-token rendering is `SuffOK` when configured names, default
keys, and the token's own attribute names are `<`-free. -/
theorem processToken_suffOK (opts : SanOptions) (buffer : List Char) (t : Token)
    (piece : List Char)
    (h : processToken (buildAllowedTagsMap opts) buffer t = Except.ok piece)
    (hrules : ∀ r ∈ opts.allowedTags,
      '<' ∉ r.tagName ∧ ∀ kv ∈ r.defaultAttributes, '<' ∉ kv.1)
    (hattrs : ∀ a ∈ tokAttrs t, '<' ∉ a.name) :
    SuffOK (keysP opts) piece := by
  have hTagCase : ∀ (sc : Bool) (n : List Char) (attrs : List TagAttribute)
      (rule : AllowedTag),
      findAllowedTag (buildAllowedTagsMap opts) n = some rule →
      buildAllowedTag sc n attrs rule = Except.ok piece →
      (∀ a ∈ attrs, '<' ∉ a.name) →
      SuffOK (keysP opts) piece := by
    intro sc n attrs rule hf hb hats
    obtain ⟨hkeys, hmem⟩ := findAllowedTag_buildMap hf
    simp only [buildAllowedTag] at hb
    cases hp : processAttributes attrs rule with
    | error e0 => rw [hp] at hb; exact absurd hb (by simp [Except.bind, bind])
    | ok attrStr =>
      rw [hp] at hb
      have hpiece : piece =
          '<' :: n ++ attrStr ++ addDefaultAttributes attrs rule ++
            (if sc then (" />").toList else ['>']) := by
        have h2 := hb
        simp only [Except.bind, bind, pure, Except.pure, Except.ok.injEq] at h2
        exact h2.symm
      have hnlt : '<' ∉ n := allowed_name_no_lt hkeys (fun r hr => (hrules r hr).1)
      obtain ⟨hattrNoLt, hattrHead⟩ := processAttributes_no_lt hp hats
      obtain ⟨hdefNoLt, hdefHead⟩ := addDefaultAttributes_no_lt attrs rule
        (fun kv hkv => (hrules rule hmem).2 kv hkv)
      have hcl : ∃ c t2, (if sc then (" />").toList else ['>']) = c :: t2 ∧
          (c = ' ' ∨ c = '>') := by
        cases sc
        · exact ⟨'>', [], rfl, Or.inr rfl⟩
        · exact ⟨' ', ['/', '>'], rfl, Or.inl rfl⟩
      have hclNoLt : '<' ∉ (if sc then (" />").toList else ['>']) := by
        cases sc <;> decide
      obtain ⟨c, rest, hcr, hcc⟩ := head_space_or_gt attrStr
        (addDefaultAttributes attrs rule) (if sc then (" />").toList else ['>'])
        hattrHead hdefHead hcl
      rw [hpiece]
      rw [show ('<' :: n ++ attrStr ++ addDefaultAttributes attrs rule ++
        (if sc then (" />").toList else ['>'])) =
        '<' :: (n ++ attrStr ++ addDefaultAttributes attrs rule ++
        (if sc then (" />").toList else ['>'])) from rfl]
      apply suffOK_cons_lt
      · intro hm
        simp only [List.mem_append] at hm
        casesm* _ ∨ _ <;>
          first
            | exact hnlt (by assumption)
            | exact hattrNoLt (by assumption)
            | exact hdefNoLt (by assumption)
            | exact hclNoLt (by assumption)
      · refine Or.inr ⟨n, c, rest, ?_, hkeys, hcc⟩
        rw [List.append_assoc, List.append_assoc, hcr]
  cases t with
  | text s e =>
    have hpiece : piece = escapeText (jsSlice buffer s e) := by
      simpa [processToken] using h.symm
    rw [hpiece]
    exact suffOK_of_no_lt (escapeText_no_lt _)
  | openTag s e n attrs =>
    simp only [processToken] at h
    cases hf : findAllowedTag (buildAllowedTagsMap opts) n with
    | none =>
      rw [hf] at h
      have hpiece : piece = escapeText (jsSlice buffer s e) := by
        simpa using h.symm
      rw [hpiece]
      exact suffOK_of_no_lt (escapeText_no_lt _)
    | some rule =>
      rw [hf] at h
      exact hTagCase false n attrs rule hf h (by simpa [tokAttrs] using hattrs)
  | selfClosingTag s e n attrs =>
    simp only [processToken] at h
    cases hf : findAllowedTag (buildAllowedTagsMap opts) n with
    | none =>
      rw [hf] at h
      have hpiece : piece = escapeText (jsSlice buffer s e) := by
        simpa using h.symm
      rw [hpiece]
      exact suffOK_of_no_lt (escapeText_no_lt _)
    | some rule =>
      rw [hf] at h
      exact hTagCase true n attrs rule hf h (by simpa [tokAttrs] using hattrs)
  | closeTag s e n =>
    simp only [processToken] at h
    cases hf : findAllowedTag (buildAllowedTagsMap opts) n with
    | none =>
      rw [hf] at h
      have hpiece : piece = escapeText (jsSlice buffer s e) := by
        simpa using h.symm
      rw [hpiece]
      exact suffOK_of_no_lt (escapeText_no_lt _)
    | some rule =>
      rw [hf] at h
      obtain ⟨hkeys, -⟩ := findAllowedTag_buildMap hf
      have hnlt : '<' ∉ n := allowed_name_no_lt hkeys (fun r hr => (hrules r hr).1)
      have hpiece : piece = '<' :: '/' :: n ++ ['>'] := by
        simpa using h.symm
      rw [hpiece]
      rw [show ('<' :: '/' :: n ++ ['>']) = '<' :: ('/' :: (n ++ ['>'])) from rfl]
      apply suffOK_cons_lt
      · intro hm
        rcases List.mem_cons.mp hm with h1 | h1
        · exact absurd h1.symm (by decide)
        · rcases List.mem_append.mp h1 with h2 | h2
          · exact hnlt h2
          · rw [List.mem_singleton] at h2
            exact absurd h2.symm (by decide)
      · exact Or.inl ⟨n ++ ['>'], rfl⟩

/-- The whole policy-engine output is `SuffOK`. -/
theorem processTokens_suffOK (opts : SanOptions) (buffer : List Char)
    (ts : List Token) (out : List Char)
    (h : processTokens (buildAllowedTagsMap opts) buffer ts = Except.ok out)
    (hrules : ∀ r ∈ opts.allowedTags,
      '<' ∉ r.tagName ∧ ∀ kv ∈ r.defaultAttributes, '<' ∉ kv.1)
    (hattrs : ∀ t ∈ ts, ∀ a ∈ tokAttrs t, '<' ∉ a.name) :
    SuffOK (keysP opts) out := by
  induction ts generalizing out with
  | nil =>
    have : out = [] := by simpa [processTokens] using h.symm
    rw [this]
    intro i tail hdrop
    simp at hdrop
  | cons t ts2 ih =>
    simp only [processTokens] at h
    cases hp : processToken (buildAllowedTagsMap opts) buffer t with
    | error e0 => rw [hp] at h; exact absurd h (by simp [Except.bind, bind])
    | ok piece =>
      rw [hp] at h
      cases hr : processTokens (buildAllowedTagsMap opts) buffer ts2 with
      | error e0 => rw [hr] at h; exact absurd h (by simp [Except.bind, bind])
      | ok rest =>
        rw [hr] at h
        have hout : out = piece ++ rest := by
          have h2 := h
          simp only [Except.bind, bind, pure, Except.pure, Except.ok.injEq] at h2
          exact h2.symm
        rw [hout]
        exact suffOK_append
          (processToken_suffOK opts buffer t piece hp hrules
            (hattrs t (List.mem_cons_self t ts2)))
          (ih rest hr (fun x hx => hattrs x (List.mem_cons_of_mem t hx)))

/-- C1 counterexample: an allowed tag keeps raw attribute names, so an
attribute named `<script` survives into the output and produces an
unescaped `<script` even though `script` has no allow-list entry. -/
theorem c1_counterexample :
    sanitizeL optsA (("<a <script=x>").toList) = ("<a <script=\"x\">").toList ∧
    hasLtName (sanitizeL optsA (("<a <script=x>").toList)) (("script").toList) = true ∧
    findAllowedTag (buildAllowedTagsMap optsA) (("script").toList) = none := by
  exact ⟨by decide, by decide, rfl⟩

/-- C1 (amended): for every input and options, provided (i) configured tag
names and default-attribute keys contain no `<`, (ii) the attribute names
parsed from the input contain no `<` (attribute names are rendered raw,
which the counterexample exploits), and (iii) the alphabetic name `B` is
not case-insensitively a prefix of any configured tag name, the sanitized
output contains no literal `<` immediately followed by `B` — every
non-allowed token and every text token is rendered through the escape
substitution, and allowed-tag renderings only ever put allowed names
after `<`. -/
theorem c1_amended (opts : SanOptions) (input B : List Char)
    (hne : B ≠ []) (halpha : B.all isASCIIAlphaC = true)
    (hpre : ∀ r ∈ opts.allowedTags, ¬ (toLowerL B <+: toLowerL r.tagName))
    (hrules : ∀ r ∈ opts.allowedTags,
      '<' ∉ r.tagName ∧ ∀ kv ∈ r.defaultAttributes, '<' ∉ kv.1)
    (hattrs : ∀ t ∈ tokenizeHtml input, ∀ a ∈ tokAttrs t, '<' ∉ a.name) :
    hasLtName (sanitizeL opts input) B = false := by
  have hkeys : ∀ N, keysP opts N → ¬ (toLowerL B <+: toLowerL N) := by
    rintro N ⟨r, hr, heq⟩ hp
    rw [heq] at hp
    exact hpre r hr hp
  unfold sanitizeL
  cases hse : sanitizeE opts input with
  | error e =>
    exact hasLtName_eq_false B hne halpha hkeys _
      (suffOK_of_no_lt (escapeText_no_lt input))
  | ok out =>
    unfold sanitizeE at hse
    by_cases hin : input = []
    · rw [if_pos hin] at hse
      have hout : out = [] := by simpa using hse.symm
      rw [hout]
      rfl
    · rw [if_neg hin] at hse
      exact hasLtName_eq_false B hne halpha hkeys out
        (processTokens_suffOK opts input (tokenizeHtml input) out hse hrules hattrs)

/-- C1 witness: a configuration with defaults, an allowed tag carrying an
attribute, and a non-allow-listed `div` in the input. -/
theorem c1_amended_witness :
    hasLtName (sanitizeL optsD (("<a href=x><div>hi</div>").toList))
      (("div").toList) = false :=
  c1_amended optsD (("<a href=x><div>hi</div>").toList) (("div").toList)
    (by decide) (by decide) (by decide) (by decide) (by decide)
